import Mathlib

/-!
# Verification of the Wasm backend code generator (compiler-core/src/wasm)

This file shallowly embeds the Wasm backend of the Gleam compiler
(`src/compiler-core/src/wasm/mod.rs` and `src/compiler-core/src/wasm/encoder.rs`)
in Lean 4 and proves or refutes the frozen claims about it.

The embedding covers:
* the subset of `wasm_encoder::Instruction` the backend emits (flat token
  lists with structured `if`/`else`/`end` markers, as the Rust code builds);
* a small-step interpreter for the integer fragment of those instruction
  sequences (Wasm semantics: `i32.div_s`/`i32.rem_s` trap on zero divisor,
  `if` takes the then-branch iff the condition is non-zero);
* the expression lowerer `emit_expression` / `emit_binary_operation`,
  the function lowerer `emit_function`, the three-pass module assembler
  `construct_module`, and the binary encoder `emit` at the granularity of
  the `wasm_encoder` API (sections and their entries).

Modules of the repository that are not part of the provided sources
(`integer.rs`, `environment.rs`, `table.rs`) are modelled from the spec;
their definitions carry a doc comment saying so.
-/

namespace GleamWasm

/-- Block types appearing on the structured `If`/`Block` tokens. -/
inductive BlockTy
  | empty
  | resultI32
  | resultF64
  | resultRef (idx : Nat)
  deriving DecidableEq, Repr

/-- The subset of `wasm_encoder::Instruction` the backend emits.
Mirrors the constructors used in `mod.rs`; `iif`/`ielse`/`iend`/`iblock`
stand for the structured `If`/`Else`/`End`/`Block` tokens. -/
inductive Instr
  | i32Const (n : Int)
  | i32Add
  | i32Sub
  | i32Mul
  | i32DivS
  | i32RemS
  | i32Eq
  | i32Eqz
  | i32LtS
  | i32LeS
  | i32GtS
  | i32GeS
  | localGet (i : Nat)
  | localSet (i : Nat)
  | localTee (i : Nat)
  | globalGet (i : Nat)
  | globalSet (i : Nat)
  | drop
  | iif (bt : BlockTy)
  | ielse
  | iend
  | iblock (bt : BlockTy)
  | br (n : Nat)
  | brIf (n : Nat)
  | call (f : Nat)
  | unreachableInstr
  | structNew (t : Nat)
  | refAsNonNull
  deriving DecidableEq, Repr

/-- Machine state of the interpreter: operand stack (top first) and the
function's locals, both holding i32 values represented as integers. -/
structure State where
  stack : List Int
  locals : List Int
  deriving DecidableEq, Repr

/-- Outcome of executing an instruction sequence.  `trap` is a Wasm trap
(integer division by zero, `unreachable`, …); `stuck` marks executions that
leave the modelled fragment (malformed code, unmodelled instructions). -/
inductive Res
  | ok (s : State)
  | trap
  | stuck
  deriving DecidableEq, Repr

/-- Depth bookkeeping shared by the scanners over flat instruction lists:
`if` and `block` open a nesting level, `end` closes one. -/
def depthStep (i : Instr) (d : Nat) : Nat :=
  match i with
  | .iif _ => d + 1
  | .iblock _ => d + 1
  | .iend => d - 1
  | _ => d

/-- Is this token a branch marker for the current (depth-0) `if`? -/
def isMark0 (d : Nat) (i : Instr) : Bool :=
  match d, i with
  | 0, .iend => true
  | 0, .ielse => true
  | _, _ => false

/-- Scan the body after an `if` token up to the matching `else` (flag
`true`) or `end` (flag `false`) at depth 0.  Returns the then-part and the
remaining tokens after the marker. -/
def splitThenAux : Nat → List Instr → Option (List Instr × Bool × List Instr)
  | _, [] => none
  | d, i :: r =>
    if d = 0 ∧ i = .iend then some ([], false, r)
    else if d = 0 ∧ i = .ielse then some ([], true, r)
    else
      match splitThenAux (depthStep i d) r with
      | some (a, he, rest) => some (i :: a, he, rest)
      | none => none

/-- Scan up to the matching `end` at depth 0 (used for the else-part). -/
def splitEndAux : Nat → List Instr → Option (List Instr × List Instr)
  | _, [] => none
  | d, i :: r =>
    if d = 0 ∧ i = .iend then some ([], r)
    else
      match splitEndAux (depthStep i d) r with
      | some (a, rest) => some (i :: a, rest)
      | none => none

/-- Depth scan of a token list: `none` if an `else`/`end` occurs at depth 0,
otherwise the final depth. -/
def scanOk : Nat → List Instr → Option Nat
  | d, [] => some d
  | d, i :: r =>
    if d = 0 ∧ (i = .iend ∨ i = .ielse) then none
    else scanOk (depthStep i d) r

/-- A well-nested instruction sequence: scanning it from depth 0 never
meets a stray `else`/`end` and returns to depth 0.  Every sequence produced
by the expression lowerer is well-nested. -/
def wellNested (l : List Instr) : Prop := scanOk 0 l = some 0

instance (l : List Instr) : Decidable (wellNested l) := by
  unfold wellNested; infer_instance

/-- Host view of the functions callable by `call`: arity and a pure
function from the argument values to the result value. -/
def FEnv := Nat → Option (Nat × (List Int → Int))

/-- Wrap an integer to the signed 32-bit range, as Wasm i32 arithmetic does. -/
def wrap32 (n : Int) : Int := (n + 2 ^ 31) % 2 ^ 32 - 2 ^ 31

/-- Result of a single non-control instruction. -/
inductive StepOut
  | next (s : State)
  | trap
  | stuck

/-- One non-control instruction step.  Division and remainder follow the
Wasm spec: `i32.div_s` traps on zero divisor and on `INT_MIN / -1`;
`i32.rem_s` traps on zero divisor.  Instructions outside the modelled
integer fragment are `stuck`. -/
def stepPure (fenv : FEnv) : Instr → State → StepOut
  | .i32Const n, s => .next ⟨n :: s.stack, s.locals⟩
  | .i32Add, s =>
    match s.stack with
    | b :: a :: st => .next ⟨wrap32 (a + b) :: st, s.locals⟩
    | _ => .stuck
  | .i32Sub, s =>
    match s.stack with
    | b :: a :: st => .next ⟨wrap32 (a - b) :: st, s.locals⟩
    | _ => .stuck
  | .i32Mul, s =>
    match s.stack with
    | b :: a :: st => .next ⟨wrap32 (a * b) :: st, s.locals⟩
    | _ => .stuck
  | .i32DivS, s =>
    match s.stack with
    | b :: a :: st =>
      if b = 0 then .trap
      else if a = -(2 ^ 31) ∧ b = -1 then .trap
      else .next ⟨Int.tdiv a b :: st, s.locals⟩
    | _ => .stuck
  | .i32RemS, s =>
    match s.stack with
    | b :: a :: st =>
      if b = 0 then .trap
      else .next ⟨Int.tmod a b :: st, s.locals⟩
    | _ => .stuck
  | .i32Eq, s =>
    match s.stack with
    | b :: a :: st => .next ⟨(if a = b then 1 else 0) :: st, s.locals⟩
    | _ => .stuck
  | .i32Eqz, s =>
    match s.stack with
    | c :: st => .next ⟨(if c = 0 then 1 else 0) :: st, s.locals⟩
    | _ => .stuck
  | .i32LtS, s =>
    match s.stack with
    | b :: a :: st => .next ⟨(if a < b then 1 else 0) :: st, s.locals⟩
    | _ => .stuck
  | .i32LeS, s =>
    match s.stack with
    | b :: a :: st => .next ⟨(if a ≤ b then 1 else 0) :: st, s.locals⟩
    | _ => .stuck
  | .i32GtS, s =>
    match s.stack with
    | b :: a :: st => .next ⟨(if b < a then 1 else 0) :: st, s.locals⟩
    | _ => .stuck
  | .i32GeS, s =>
    match s.stack with
    | b :: a :: st => .next ⟨(if b ≤ a then 1 else 0) :: st, s.locals⟩
    | _ => .stuck
  | .localGet i, s => .next ⟨s.locals.getD i 0 :: s.stack, s.locals⟩
  | .localSet i, s =>
    match s.stack with
    | c :: st => .next ⟨st, s.locals.set i c⟩
    | _ => .stuck
  | .localTee i, s =>
    match s.stack with
    | c :: st => .next ⟨c :: st, s.locals.set i c⟩
    | _ => .stuck
  | .drop, s =>
    match s.stack with
    | _ :: st => .next ⟨st, s.locals⟩
    | _ => .stuck
  | .call f, s =>
    match fenv f with
    | some (n, g) =>
      if n ≤ s.stack.length then
        .next ⟨g ((s.stack.take n).reverse) :: s.stack.drop n, s.locals⟩
      else .stuck
    | none => .stuck
  | .unreachableInstr, _ => .trap
  | _, _ => .stuck

lemma splitThenAux_structure :
    ∀ (l : List Instr) (d : Nat) (a : List Instr) (he : Bool) (rest : List Instr),
      splitThenAux d l = some (a, he, rest) →
      l = a ++ (if he then Instr.ielse else Instr.iend) :: rest := by
  intro l
  induction l with
  | nil => intro d a he rest h; simp [splitThenAux] at h
  | cons i r ih =>
    intro d a he rest h
    rw [splitThenAux] at h
    split_ifs at h with h1 h2
    · obtain ⟨rfl, rfl, rfl⟩ : [] = a ∧ false = he ∧ r = rest := by
        simpa using h
      simp [h1.2]
    · obtain ⟨rfl, rfl, rfl⟩ : [] = a ∧ true = he ∧ r = rest := by
        simpa using h
      simp [h2.2]
    · cases hx : splitThenAux (depthStep i d) r with
      | none => rw [hx] at h; simp at h
      | some y =>
        obtain ⟨a', he', rest'⟩ := y
        rw [hx] at h
        obtain ⟨rfl, rfl, rfl⟩ : i :: a' = a ∧ he' = he ∧ rest' = rest := by
          simpa using h
        have := ih _ _ _ _ hx
        simp [this]

lemma splitEndAux_structure :
    ∀ (l : List Instr) (d : Nat) (a rest : List Instr),
      splitEndAux d l = some (a, rest) → l = a ++ Instr.iend :: rest := by
  intro l
  induction l with
  | nil => intro d a rest h; simp [splitEndAux] at h
  | cons i r ih =>
    intro d a rest h
    rw [splitEndAux] at h
    split_ifs at h with h1
    · obtain ⟨rfl, rfl⟩ : [] = a ∧ r = rest := by simpa using h
      simp [h1.2]
    · cases hx : splitEndAux (depthStep i d) r with
      | none => rw [hx] at h; simp at h
      | some y =>
        obtain ⟨a', rest'⟩ := y
        rw [hx] at h
        obtain ⟨rfl, rfl⟩ : i :: a' = a ∧ rest' = rest := by simpa using h
        have := ih _ _ _ hx
        simp [this]

lemma splitThenAux_len {l : List Instr} {d : Nat} {a : List Instr} {he : Bool}
    {rest : List Instr} (h : splitThenAux d l = some (a, he, rest)) :
    a.length + rest.length + 1 = l.length := by
  have := splitThenAux_structure l d a he rest h
  subst this
  simp only [List.length_append, List.length_cons]
  omega

lemma splitEndAux_len {l : List Instr} {d : Nat} {a rest : List Instr}
    (h : splitEndAux d l = some (a, rest)) :
    a.length + rest.length + 1 = l.length := by
  have := splitEndAux_structure l d a rest h
  subst this
  simp only [List.length_append, List.length_cons]
  omega

/-- Is the token a structured `if`? -/
def isIf : Instr → Bool
  | .iif _ => true
  | _ => false

/-- Execute a flat instruction sequence.  An `if` pops the condition,
locates its `else`/`end` markers and continues in the chosen branch; per
the Wasm semantics the then-branch runs iff the condition is non-zero. -/
def run (fenv : FEnv) : List Instr → State → Res
  | [], s => .ok s
  | i :: r, s =>
    if isIf i then
      match s.stack with
      | [] => .stuck
      | c :: st =>
        match h1 : splitThenAux 0 r with
        | none => .stuck
        | some (thenP, true, rest1) =>
          match h2 : splitEndAux 0 rest1 with
          | none => .stuck
          | some (elseP, after) =>
            if c ≠ 0 then run fenv (thenP ++ after) ⟨st, s.locals⟩
            else run fenv (elseP ++ after) ⟨st, s.locals⟩
        | some (thenP, false, rest1) =>
          if c ≠ 0 then run fenv (thenP ++ rest1) ⟨st, s.locals⟩
          else run fenv rest1 ⟨st, s.locals⟩
    else
      match stepPure fenv i s with
      | .next s' => run fenv r s'
      | .trap => .trap
      | .stuck => .stuck
termination_by l _ => l.length
decreasing_by
  · have hlen := splitThenAux_len h1
    have hlen2 := splitEndAux_len h2
    simp only [List.length_append, List.length_cons]
    omega
  · have hlen := splitThenAux_len h1
    have hlen2 := splitEndAux_len h2
    simp only [List.length_append, List.length_cons]
    omega
  · have hlen := splitThenAux_len h1
    simp only [List.length_append, List.length_cons]
    omega
  · have hlen := splitThenAux_len h1
    simp only [List.length_cons]
    omega
  · simp only [List.length_cons]
    omega

lemma splitThenAux_append {d : Nat} {l : List Instr} {a : List Instr} {he : Bool}
    {rest : List Instr} (B : List Instr) (h : splitThenAux d l = some (a, he, rest)) :
    splitThenAux d (l ++ B) = some (a, he, rest ++ B) := by
  induction l generalizing d a with
  | nil => simp [splitThenAux] at h
  | cons i r ih =>
    rw [splitThenAux] at h
    rw [List.cons_append, splitThenAux]
    split_ifs at h ⊢ with h1 h2
    · obtain ⟨rfl, rfl, rfl⟩ : [] = a ∧ false = he ∧ r = rest := by simpa using h
      simp
    · obtain ⟨rfl, rfl, rfl⟩ : [] = a ∧ true = he ∧ r = rest := by simpa using h
      simp
    · cases hx : splitThenAux (depthStep i d) r with
      | none => rw [hx] at h; simp at h
      | some y =>
        obtain ⟨a', he', rest'⟩ := y
        rw [hx] at h
        obtain ⟨rfl, rfl, rfl⟩ : i :: a' = a ∧ he' = he ∧ rest' = rest := by
          simpa using h
        rw [ih hx]

lemma splitEndAux_append {d : Nat} {l : List Instr} {a rest : List Instr}
    (B : List Instr) (h : splitEndAux d l = some (a, rest)) :
    splitEndAux d (l ++ B) = some (a, rest ++ B) := by
  induction l generalizing d a with
  | nil => simp [splitEndAux] at h
  | cons i r ih =>
    rw [splitEndAux] at h
    rw [List.cons_append, splitEndAux]
    split_ifs at h ⊢ with h1
    · obtain ⟨rfl, rfl⟩ : [] = a ∧ r = rest := by simpa using h
      simp
    · cases hx : splitEndAux (depthStep i d) r with
      | none => rw [hx] at h; simp at h
      | some y =>
        obtain ⟨a', rest'⟩ := y
        rw [hx] at h
        obtain ⟨rfl, rfl⟩ : i :: a' = a ∧ rest' = rest := by simpa using h
        rw [ih hx]

lemma scanOk_splitThenAux {R : List Instr} :
    ∀ {d d' : Nat}, scanOk d R = some d' → ∀ (t : List Instr),
      splitThenAux d (R ++ t) =
        match splitThenAux d' t with
        | some (a, he, rest) => some (R ++ a, he, rest)
        | none => none := by
  induction R with
  | nil =>
    intro d d' h t
    have hd : d = d' := by simpa [scanOk] using h
    subst hd
    cases hx : splitThenAux d t with
    | none => simp [hx]
    | some y => obtain ⟨a, he, rest⟩ := y; simp [hx]
  | cons i r ih =>
    intro d d' h t
    rw [scanOk] at h
    split_ifs at h with h1
    rw [List.cons_append, splitThenAux]
    have hnot : ¬(d = 0 ∧ i = Instr.iend) ∧ ¬(d = 0 ∧ i = Instr.ielse) := by
      constructor <;> rintro ⟨rfl, rfl⟩ <;> exact h1 (by simp)
    rw [if_neg hnot.1, if_neg hnot.2]
    rw [ih h t]
    cases hx : splitThenAux d' t with
    | none => simp
    | some y => obtain ⟨a, he, rest⟩ := y; simp

lemma scanOk_splitEndAux {R : List Instr} :
    ∀ {d d' : Nat}, scanOk d R = some d' → ∀ (t : List Instr),
      splitEndAux d (R ++ t) =
        match splitEndAux d' t with
        | some (a, rest) => some (R ++ a, rest)
        | none => none := by
  induction R with
  | nil =>
    intro d d' h t
    have hd : d = d' := by simpa [scanOk] using h
    subst hd
    cases hx : splitEndAux d t with
    | none => simp [hx]
    | some y => obtain ⟨a, rest⟩ := y; simp [hx]
  | cons i r ih =>
    intro d d' h t
    rw [scanOk] at h
    split_ifs at h with h1
    rw [List.cons_append, splitEndAux]
    have hnot : ¬(d = 0 ∧ i = Instr.iend) := by
      rintro ⟨rfl, rfl⟩; exact h1 (by simp)
    rw [if_neg hnot]
    rw [ih h t]
    cases hx : splitEndAux d' t with
    | none => simp
    | some y => obtain ⟨a, rest⟩ := y; simp

lemma run_nil (fenv : FEnv) (s : State) : run fenv [] s = .ok s := by
  simp [run]

lemma run_cons_step (fenv : FEnv) (i : Instr) (r : List Instr) (s : State)
    (hIf : isIf i = false) :
    run fenv (i :: r) s =
      match stepPure fenv i s with
      | .next s1 => run fenv r s1
      | .trap => .trap
      | .stuck => .stuck := by
  rw [run]
  simp [hIf]

lemma run_iif_stack_nil (fenv : FEnv) (bt : BlockTy) (r : List Instr) (s : State)
    (hstk : s.stack = []) :
    run fenv (.iif bt :: r) s = .stuck := by
  rw [run]
  simp [isIf, hstk]

lemma run_iif_split_none (fenv : FEnv) (bt : BlockTy) (r : List Instr) (c : Int)
    (st : List Int) (lc : List Int) (h1 : splitThenAux 0 r = none) :
    run fenv (.iif bt :: r) ⟨c :: st, lc⟩ = .stuck := by
  rw [run]
  simp only [isIf, if_true]
  split
  · rfl
  · simp_all
  · simp_all

lemma run_iif_end_none (fenv : FEnv) (bt : BlockTy) (r : List Instr) (c : Int)
    (st : List Int) (lc : List Int) (thenP rest1 : List Instr)
    (h1 : splitThenAux 0 r = some (thenP, true, rest1))
    (h2 : splitEndAux 0 rest1 = none) :
    run fenv (.iif bt :: r) ⟨c :: st, lc⟩ = .stuck := by
  rw [run]
  simp only [isIf, if_true]
  split
  · rfl
  · rename_i thenP1 rest11 heq
    rw [h1] at heq
    obtain ⟨rfl, rfl⟩ : thenP = thenP1 ∧ rest1 = rest11 := by simpa using heq
    split
    · rfl
    · simp_all
  · rename_i heq
    rw [h1] at heq
    simp at heq

lemma run_iif_noelse (fenv : FEnv) (bt : BlockTy) (r : List Instr) (c : Int)
    (st : List Int) (lc : List Int) (thenP rest1 : List Instr)
    (h1 : splitThenAux 0 r = some (thenP, false, rest1)) :
    run fenv (.iif bt :: r) ⟨c :: st, lc⟩ =
      if c ≠ 0 then run fenv (thenP ++ rest1) ⟨st, lc⟩
      else run fenv rest1 ⟨st, lc⟩ := by
  rw [run]
  simp only [isIf, if_true]
  split
  · exact absurd h1 (by simp_all)
  · simp_all
  · simp_all

lemma run_iif_else (fenv : FEnv) (bt : BlockTy) (r : List Instr) (c : Int)
    (st : List Int) (lc : List Int) (thenP rest1 elseP after : List Instr)
    (h1 : splitThenAux 0 r = some (thenP, true, rest1))
    (h2 : splitEndAux 0 rest1 = some (elseP, after)) :
    run fenv (.iif bt :: r) ⟨c :: st, lc⟩ =
      if c ≠ 0 then run fenv (thenP ++ after) ⟨st, lc⟩
      else run fenv (elseP ++ after) ⟨st, lc⟩ := by
  rw [run]
  simp only [isIf, if_true]
  split
  · exact absurd h1 (by simp_all)
  · rename_i thenP1 rest11 heq
    rw [h1] at heq
    obtain ⟨rfl, rfl⟩ : thenP = thenP1 ∧ rest1 = rest11 := by simpa using heq
    split
    · exact absurd h2 (by simp_all)
    · rename_i elseP1 after1 heq2
      rw [h2] at heq2
      obtain ⟨rfl, rfl⟩ : elseP = elseP1 ∧ after = after1 := by simpa using heq2
      rfl
  · rename_i heq
    rw [h1] at heq
    simp at heq

lemma run_append_ok_aux (fenv : FEnv) :
    ∀ (n : Nat) (A : List Instr), A.length ≤ n →
      ∀ (B : List Instr) (s s' : State), run fenv A s = .ok s' →
        run fenv (A ++ B) s = run fenv B s' := by
  intro n
  induction n with
  | zero =>
    intro A hA B s s' h
    have hnil : A = [] := List.eq_nil_of_length_eq_zero (Nat.le_zero.mp hA)
    subst hnil
    rw [run_nil] at h
    cases h
    simp
  | succ n ih =>
    intro A hA B s s' h
    cases A with
    | nil =>
      rw [run_nil] at h
      cases h
      simp
    | cons i r =>
      have hr : r.length ≤ n := by
        simpa using Nat.lt_succ_iff.mp (Nat.lt_of_lt_of_le (by simp) hA)
      by_cases hIf : isIf i
      · obtain ⟨bt, rfl⟩ : ∃ bt, i = .iif bt := by
          cases i <;> simp [isIf] at hIf <;> exact ⟨_, rfl⟩
        obtain ⟨stack, locals⟩ := s
        cases stack with
        | nil =>
          rw [run_iif_stack_nil fenv _ r _ rfl] at h
          cases h
        | cons c st =>
          cases h1 : splitThenAux 0 r with
          | none =>
            rw [run_iif_split_none fenv _ r c st locals h1] at h
            cases h
          | some y =>
            obtain ⟨thenP, he, rest1⟩ := y
            cases he with
            | false =>
              rw [run_iif_noelse fenv _ r c st locals thenP rest1 h1] at h
              rw [List.cons_append,
                run_iif_noelse fenv _ (r ++ B) c st locals thenP (rest1 ++ B)
                  (splitThenAux_append B h1)]
              have hl1 := splitThenAux_len h1
              by_cases hc : c ≠ 0
              · rw [if_pos hc] at h
                rw [if_pos hc, ← List.append_assoc]
                exact ih (thenP ++ rest1) (by simp; omega) B _ s' h
              · rw [if_neg hc] at h
                rw [if_neg hc]
                exact ih rest1 (by omega) B _ s' h
            | true =>
              cases h2 : splitEndAux 0 rest1 with
              | none =>
                rw [run_iif_end_none fenv _ r c st locals thenP rest1 h1 h2] at h
                cases h
              | some z =>
                obtain ⟨elseP, after⟩ := z
                rw [run_iif_else fenv _ r c st locals thenP rest1 elseP after h1 h2] at h
                rw [List.cons_append,
                  run_iif_else fenv _ (r ++ B) c st locals thenP (rest1 ++ B) elseP
                    (after ++ B) (splitThenAux_append B h1) (splitEndAux_append B h2)]
                have hl1 := splitThenAux_len h1
                have hl2 := splitEndAux_len h2
                by_cases hc : c ≠ 0
                · rw [if_pos hc] at h
                  rw [if_pos hc, ← List.append_assoc]
                  exact ih (thenP ++ after) (by simp; omega) B _ s' h
                · rw [if_neg hc] at h
                  rw [if_neg hc, ← List.append_assoc]
                  exact ih (elseP ++ after) (by simp; omega) B _ s' h
      · rw [run_cons_step fenv i r s (by simpa using hIf)] at h
        rw [List.cons_append, run_cons_step fenv i (r ++ B) s (by simpa using hIf)]
        cases hs : stepPure fenv i s with
        | next s1 =>
          rw [hs] at h
          have h' : run fenv r s1 = .ok s' := h
          show run fenv (r ++ B) s1 = run fenv B s'
          exact ih r hr B s1 s' h'
        | trap => rw [hs] at h; cases h
        | stuck => rw [hs] at h; cases h

/-- Sequential composition: if a prefix executes successfully, execution of
the concatenation continues with the suffix from the reached state. -/
lemma run_append_ok {fenv : FEnv} {A B : List Instr} {s s' : State}
    (h : run fenv A s = .ok s') :
    run fenv (A ++ B) s = run fenv B s' :=
  run_append_ok_aux fenv A.length A (Nat.le_refl _) B s s' h

/-! ## Integer primitives

Modelled from the spec: `integer.rs` is not among the provided sources.
Spec §4.A: canonical parsing of integer literals (bin/oct/dec/hex with
underscore separators) and the instruction factories for the 32-bit signed
integer operations (`const`, `add`, …, `div`/`rem` signed, comparisons). -/

namespace integer

def digitVal (c : Char) : Nat :=
  if '0' ≤ c ∧ c ≤ '9' then c.toNat - '0'.toNat
  else if 'a' ≤ c ∧ c ≤ 'f' then c.toNat - 'a'.toNat + 10
  else if 'A' ≤ c ∧ c ≤ 'F' then c.toNat - 'A'.toNat + 10
  else 0

def parseDigits (base : Nat) (cs : List Char) : Nat :=
  cs.foldl (fun acc c => acc * base + digitVal c) 0

/-- Modelled from the spec: strip `_` separators and dispatch on the
`0b`/`0o`/`0x` prefix, defaulting to base 10. -/
def parse (s : String) : Int :=
  let cs := s.data.filter (fun c => c ≠ '_')
  match cs with
  | '0' :: 'b' :: rest => (parseDigits 2 rest : Int)
  | '0' :: 'o' :: rest => (parseDigits 8 rest : Int)
  | '0' :: 'x' :: rest => (parseDigits 16 rest : Int)
  | _ => (parseDigits 10 cs : Int)

def const_ (n : Int) : List Instr := [.i32Const n]

def add : List Instr := [.i32Add]

def sub : List Instr := [.i32Sub]

def mul : List Instr := [.i32Mul]

def div : List Instr := [.i32DivS]

def rem : List Instr := [.i32RemS]

def eq : List Instr := [.i32Eq]

def lt : List Instr := [.i32LtS]

def lte : List Instr := [.i32LeS]

def gt : List Instr := [.i32GtS]

def gte : List Instr := [.i32GeS]

end integer

/-! ## Environment

Modelled from the spec: `environment.rs` is not among the provided
sources.  Spec §4.D: a persistent chain of name→binding maps where `set`
shadows and lookups walk parents.  A chain of scopes flattens to one
association list with the most recent binding first, which is how it is
modelled here (`envSet` conses, `envGet` takes the first hit). -/

inductive BuiltinType
  | nil
  | boolean (value : Bool)
  deriving DecidableEq, Repr

inductive Binding
  | localId (id : Nat)
  | functionId (id : Nat)
  | productId (id : Nat)
  | sumId (id : Nat)
  | builtin (b : BuiltinType)
  deriving DecidableEq, Repr

def Env := List (String × Binding)

def envGet (env : Env) (name : String) : Option Binding :=
  (env.find? (fun x => x.1 == name)).map (fun x => x.2)

def envSet (env : Env) (name : String) (b : Binding) : Env :=
  (name, b) :: env

/-! ## Wasm entity model (encoder.rs data types) -/

inductive WasmTypeImpl
  | int
  | float
  | bool
  | nil
  | structRef (idx : Nat)
  deriving DecidableEq, Repr

inductive WasmTypeDefinition
  | function (parameters : List WasmTypeImpl) (returns : WasmTypeImpl)
  | sum
  | product (supertype_index : Nat) (tag : Nat) (fields : List WasmTypeImpl)
  deriving DecidableEq, Repr

structure WasmType where
  name : String
  id : Nat
  definition : WasmTypeDefinition
  deriving DecidableEq, Repr

structure WasmGlobal where
  name : String
  global_index : Nat
  type_index : Nat
  initializer : List Instr
  deriving DecidableEq, Repr

structure WasmFunction where
  name : String
  type_index : Nat
  instructions : List Instr
  locals : List (String × WasmTypeImpl)
  argument_names : List (Option String)
  function_index : Nat
  deriving DecidableEq, Repr

structure WasmModule where
  functions : List WasmFunction
  constants : List WasmGlobal
  types : List WasmType
  deriving DecidableEq, Repr

/-! ## Symbol table

Modelled from the spec: `table.rs` is not among the provided sources.
Spec §4.B–C: a monotonic ID allocator per entity kind plus an in-memory
store behind those IDs with `get` and ascending `as_list` accessors;
entities are never removed or renumbered. -/

structure Store (α : Type) where
  next : Nat
  items : List (Nat × α)
  deriving DecidableEq, Repr

def Store.empty {α : Type} : Store α := ⟨0, []⟩

def Store.newId {α : Type} (s : Store α) : Nat × Store α :=
  (s.next, { s with next := s.next + 1 })

def Store.insert {α : Type} (s : Store α) (id : Nat) (a : α) : Store α :=
  { s with items := s.items ++ [(id, a)] }

def Store.get {α : Type} (s : Store α) (id : Nat) : Option α :=
  (s.items.find? (fun x => x.1 == id)).map (fun x => x.2)

/-- `table::Type`: a symbol-table entry wrapping a `WasmType`. -/
structure TableTypeEntry where
  id : Nat
  name : String
  definition : WasmType
  deriving DecidableEq, Repr

/-- `table::Function`. -/
structure TableFunction where
  id : Nat
  signature : Nat
  name : String
  arity : Nat
  deriving DecidableEq, Repr

structure ProductField where
  name : String
  index : Nat
  type_ : WasmTypeImpl
  deriving DecidableEq, Repr

/-- `table::ProductKind`; `inst` is the source's `instance` field (a Lean
keyword). -/
inductive ProductKind
  | simple (inst : Nat)
  | composite
  deriving DecidableEq, Repr

structure Product where
  id : Nat
  name : String
  type_ : Nat
  parent : Nat
  tag : Nat
  constructor : Nat
  kind : ProductKind
  fields : List ProductField
  deriving DecidableEq, Repr

structure Sum where
  id : Nat
  name : String
  type_ : Nat
  variants : List Nat
  deriving DecidableEq, Repr

structure Constant where
  id : Nat
  name : String
  type_ : Nat
  deriving DecidableEq, Repr

structure SymbolTable where
  types : Store TableTypeEntry
  functions : Store TableFunction
  products : Store Product
  sums : Store Sum
  constants : Store Constant
  deriving DecidableEq, Repr

def SymbolTable.empty : SymbolTable :=
  ⟨Store.empty, Store.empty, Store.empty, Store.empty, Store.empty⟩

/-! ## Source types and typed AST (the fragment the claims need) -/

/-- The relevant shapes of `type_::Type` after inference: the prelude
scalar types, a named (user) type, and resolved/unresolved type
variables. -/
inductive GType
  | int
  | bool
  | nil
  | named (name : String)
  | varLink (t : GType)
  | varUnbound
  deriving DecidableEq, Repr

/-- `WasmTypeImpl::from_gleam_type` (encoder.rs): scalars map directly,
named types resolve through the environment to product/sum struct
references, resolved type variables recurse, anything else panics
(modelled as `none`). -/
def from_gleam_type : GType → Env → SymbolTable → Option WasmTypeImpl
  | .int, _, _ => some .int
  | .bool, _, _ => some .bool
  | .nil, _, _ => some .nil
  | .named name, env, table =>
    match envGet env name with
    | some (.productId id) =>
      match table.products.get id with
      | some product =>
        match table.types.get product.type_ with
        | some t => some (.structRef t.definition.id)
        | none => none
      | none => none
    | some (.sumId id) =>
      match table.sums.get id with
      | some sum =>
        match table.types.get sum.type_ with
        | some t => some (.structRef t.definition.id)
        | none => none
      | none => none
    | _ => none
  | .varLink t, env, table => from_gleam_type t env table
  | .varUnbound, _, _ => none

/-- The `ValueConstructorVariant` data carried on a `TypedExpr::Var`. -/
inductive VariantRef
  | localVariable
  | moduleFn (name : String)
  | record (name : String) (arity : Nat)
  deriving DecidableEq, Repr

/-- The binary operators whose lowering the embedding covers (the integer
and boolean arms of `emit_binary_operation`; the float arms and the
type-dispatched `Eq`/`NotEq` arms are outside this fragment). -/
inductive BinOp
  | addInt
  | subInt
  | multInt
  | divInt
  | remainderInt
  | and
  | or
  | ltInt
  | ltEqInt
  | gtEqInt
  | gtInt
  deriving DecidableEq, Repr

/-- The typed-expression fragment the claims range over: integer literals,
variables, binary operations, calls, blocks of expression statements and
the unary negations.  (Statements are expression statements; `use`,
assignments and case expressions are not needed by any claim.) -/
inductive TypedExpr
  | int (value : String)
  | var (name : String) (variant : VariantRef)
  | binop (name : BinOp) (left : TypedExpr) (right : TypedExpr)
  | call (fn : TypedExpr) (args : List TypedExpr)
  | block (statements : List TypedExpr)
  | negateInt (value : TypedExpr)
  | negateBool (value : TypedExpr)

/-- A function-local as stored in `table::LocalStore`.  Modelled from the
spec (§3 *Local*): ids are contiguous per function starting at 0.  In the
source every `new_id` is immediately followed by the matching `insert`,
so the store is just the insertion list and a fresh id is its length. -/
structure Local where
  id : Nat
  name : String
  wasm_type : WasmTypeImpl
  deriving DecidableEq, Repr

abbrev LocalStore := List Local

/-! ## Expression lowering (`emit_expression` / `emit_binary_operation`,
mod.rs).  Panicking paths (`todo!`, `unreachable!`, `.unwrap()` failures)
are modelled as `none`. -/

mutual

def emit_expression : TypedExpr → Env → LocalStore → SymbolTable →
    Option (List Instr × LocalStore)
  | .int value, _, locals, _ =>
    some (integer.const_ (integer.parse value), locals)
  | .negateInt value, env, locals, table => do
    let (insts, locals1) ← emit_expression value env locals table
    some (insts ++ integer.const_ (-1) ++ integer.mul, locals1)
  | .negateBool value, env, locals, table => do
    let (insts, locals1) ← emit_expression value env locals table
    some (insts ++ [.i32Eqz], locals1)
  | .block statements, env, locals, table =>
    emit_statement_list statements env locals table
  | .binop name left right, env, locals, table =>
    emit_binary_operation env locals table name left right
  | .var name variant, env, locals, table =>
    match variant with
    | .localVariable =>
      match envGet env name with
      | some (.localId id) => some ([.localGet id], locals)
      | _ => none
    | .moduleFn fname =>
      match envGet env fname with
      | some (.functionId id) => some ([.call id], locals)
      | _ => none
    | .record rname arity =>
      if arity = 0 then
        match envGet env rname with
        | some (.productId id) =>
          match table.products.get id with
          | some product =>
            match product.kind with
            | .simple inst => some ([.globalGet inst, .refAsNonNull], locals)
            | .composite => none
          | none => none
        | some (.builtin .nil) => some ([.i32Const 0], locals)
        | some (.builtin (.boolean value)) =>
          some ([.i32Const (if value then 1 else 0)], locals)
        | _ => none
      else none
  | .call fn args, env, locals, table => do
    let (insts, locals1) ← emit_call_args args env locals table
    match fn with
    | .var _ (.moduleFn fname) =>
      match envGet env fname with
      | some (.functionId id) => some (insts ++ [.call id], locals1)
      | _ => none
    | .var _ (.record rname _) =>
      match envGet env rname with
      | some (.productId id) =>
        match table.products.get id with
        | some product => some (insts ++ [.call product.constructor], locals1)
        | none => none
      | _ => none
    | _ => none
termination_by e _ _ _ => sizeOf e
decreasing_by
  all_goals simp_wf
  all_goals try omega
  all_goals (cases name <;> simp_arith)

def emit_call_args : List TypedExpr → Env → LocalStore → SymbolTable →
    Option (List Instr × LocalStore)
  | [], _, locals, _ => some ([], locals)
  | a :: rest, env, locals, table => do
    let (insts, locals1) ← emit_expression a env locals table
    let (insts2, locals2) ← emit_call_args rest env locals1 table
    some (insts ++ insts2, locals2)
termination_by l _ _ _ => sizeOf l
decreasing_by
  all_goals simp_wf
  all_goals omega

def emit_statement_list : List TypedExpr → Env → LocalStore → SymbolTable →
    Option (List Instr × LocalStore)
  | [], _, locals, _ => some ([], locals)
  | [st] , env, locals, table => emit_expression st env locals table
  | st :: rest, env, locals, table => do
    let (insts, locals1) ← emit_expression st env locals table
    let (insts2, locals2) ← emit_statement_list rest env locals1 table
    some (insts ++ [.drop] ++ insts2, locals2)
termination_by l _ _ _ => sizeOf l
decreasing_by
  all_goals simp_wf
  all_goals omega

def emit_binary_operation (env : Env) (locals : LocalStore) (table : SymbolTable) :
    BinOp → TypedExpr → TypedExpr → Option (List Instr × LocalStore)
  | .addInt, left, right => do
    let (insts, l1) ← emit_expression left env locals table
    let (rinsts, l2) ← emit_expression right env l1 table
    some (insts ++ rinsts ++ integer.add, l2)
  | .subInt, left, right => do
    let (insts, l1) ← emit_expression left env locals table
    let (rinsts, l2) ← emit_expression right env l1 table
    some (insts ++ rinsts ++ integer.sub, l2)
  | .multInt, left, right => do
    let (insts, l1) ← emit_expression left env locals table
    let (rinsts, l2) ← emit_expression right env l1 table
    some (insts ++ rinsts ++ integer.mul, l2)
  | .divInt, left, right => do
    let right_id := locals.length
    let locals0 := locals ++ [⟨right_id, "@fdiv_rhs_temp", .int⟩]
    let (insts, l1) ← emit_expression left env locals0 table
    let (rinsts, l2) ← emit_expression right env l1 table
    some (insts ++ rinsts
        ++ [.localTee right_id] ++ integer.const_ 0 ++ integer.eq
        ++ [.iif .resultI32, .localGet right_id] ++ integer.div
        ++ [.ielse, .drop, .localGet right_id, .iend], l2)
  | .remainderInt, left, right => do
    let (insts, l1) ← emit_expression left env locals table
    let (rinsts, l2) ← emit_expression right env l1 table
    some (insts ++ rinsts ++ integer.rem, l2)
  | .and, left, right => do
    let (insts, l1) ← emit_expression left env locals table
    let (rinsts, l2) ← emit_expression right env l1 table
    some (insts ++ [.iif .resultI32] ++ rinsts ++ [.ielse, .i32Const 0, .iend], l2)
  | .or, left, right => do
    let (insts, l1) ← emit_expression left env locals table
    let (rinsts, l2) ← emit_expression right env l1 table
    some (insts ++ [.iif .resultI32, .i32Const 1, .ielse] ++ rinsts ++ [.iend], l2)
  | .ltInt, left, right => do
    let (insts, l1) ← emit_expression left env locals table
    let (rinsts, l2) ← emit_expression right env l1 table
    some (insts ++ rinsts ++ integer.lt, l2)
  | .ltEqInt, left, right => do
    let (insts, l1) ← emit_expression left env locals table
    let (rinsts, l2) ← emit_expression right env l1 table
    some (insts ++ rinsts ++ integer.lte, l2)
  | .gtEqInt, left, right => do
    let (insts, l1) ← emit_expression left env locals table
    let (rinsts, l2) ← emit_expression right env l1 table
    some (insts ++ rinsts ++ integer.gte, l2)
  | .gtInt, left, right => do
    let (insts, l1) ← emit_expression left env locals table
    let (rinsts, l2) ← emit_expression right env l1 table
    some (insts ++ rinsts ++ integer.gt, l2)
termination_by _ l r => sizeOf l + sizeOf r + 1
decreasing_by
  all_goals simp_wf
  all_goals omega

end

/-! ## Function lowering (`emit_function`, mod.rs) -/

/-- A typed function argument: `names.get_variable_name()` flattened to an
`Option String`, plus its Gleam type. -/
structure FnArg where
  names : Option String
  type_ : GType
  deriving DecidableEq, Repr

structure TypedFunction where
  name : String
  arguments : List FnArg
  return_type : GType
  body : List TypedExpr

/-- The argument loop of `emit_function`: for each argument allocate a
local, name it after the bound variable or the *literal* string
`"#{idx}"` when the pattern binds no name (the Rust code uses a plain
string literal, not interpolation), and bind the name in the child
environment. -/
def processArgs : List FnArg → Env → LocalStore → SymbolTable → Option (Env × LocalStore)
  | [], env, locals, _ => some (env, locals)
  | arg :: rest, env, locals, table => do
    let idx := locals.length
    let name := arg.names.getD "#{idx}"
    let wt ← from_gleam_type arg.type_ env table
    processArgs rest (envSet env name (.localId idx))
      (locals ++ [⟨idx, name, wt⟩]) table

def emit_function (function : TypedFunction) (function_id : Nat)
    (table : SymbolTable) (top_level_env : Env) : Option WasmFunction := do
  let function_data ← table.functions.get function_id
  let (env, locals) ← processArgs function.arguments top_level_env [] table
  let (body, locals') ← emit_statement_list function.body env locals table
  some { name := function_data.name,
         function_index := function_data.id,
         type_index := function_data.signature,
         instructions := body ++ [.iend],
         argument_names := (locals'.take function_data.arity).map (fun l => some l.name),
         locals := (locals'.drop function_data.arity).map (fun l => (l.name, l.wasm_type)) }

/-! ## Custom types and variant constructors -/

structure RecordArg where
  label : Option String
  type_ : GType
  deriving DecidableEq, Repr

structure RecordConstructor where
  name : String
  arguments : List RecordArg
  deriving DecidableEq, Repr

structure CustomType where
  name : String
  parameters : List Unit
  constructors : List RecordConstructor
  deriving DecidableEq, Repr

/-- `emit_variant_constructor` (mod.rs): push the tag, push every argument
local, `struct.new` the product type, `end`. -/
def emit_variant_constructor (constructor : RecordConstructor)
    (variant_data : Product) (table : SymbolTable) : Option WasmFunction := do
  let function ← table.functions.get variant_data.constructor
  some { name := "new@" ++ function.name,
         function_index := variant_data.constructor,
         type_index := function.signature,
         instructions :=
           integer.const_ (Int.ofNat variant_data.tag)
             ++ (List.range constructor.arguments.length).map Instr.localGet
             ++ [.structNew variant_data.type_, .iend],
         argument_names := constructor.arguments.map (fun _ => none),
         locals := [] }

/-! ## Type synthesis (`WasmType::from_*`, encoder.rs) -/

def from_function (f : TypedFunction) (name : String) (id : Nat)
    (table : SymbolTable) (env : Env) : Option WasmType := do
  let parameters ← f.arguments.mapM (fun arg => from_gleam_type arg.type_ env table)
  let returns ← from_gleam_type f.return_type env table
  some { name := name, id := id, definition := .function parameters returns }

def from_product_type (variant : RecordConstructor) (name : String)
    (type_id tag supertype_index : Nat) (table : SymbolTable) (env : Env) :
    Option WasmType := do
  let fields ← variant.arguments.mapM (fun arg => from_gleam_type arg.type_ env table)
  some { name := name, id := type_id,
         definition := .product supertype_index tag fields }

def from_product_type_constructor (variant : RecordConstructor) (name : String)
    (product_type_index constructor_type_index : Nat) (table : SymbolTable)
    (env : Env) : Option WasmType := do
  let fields ← variant.arguments.mapM (fun arg => from_gleam_type arg.type_ env table)
  some { name := name, id := constructor_type_index,
         definition := .function fields (.structRef product_type_index) }

/-! ## The module assembler (`construct_module`, mod.rs) -/

inductive TypedDefinition
  | function (f : TypedFunction)
  | customType (t : CustomType)
  | importDef
  | typeAlias
  | moduleConstant

structure TypedModule where
  definitions : List TypedDefinition

/-- `generate_prelude_types`: bind `Nil`, `True`, `False` builtins. -/
def generate_prelude_types (env : Env) : Env :=
  envSet (envSet (envSet env "Nil" (.builtin .nil))
      "True" (.builtin (.boolean true)))
    "False" (.builtin (.boolean false))

/-- FIRST PASS: allocate an id for every sum type and function and bind
its name. Unsupported definitions abort (`todo!`). -/
def pass1 : List TypedDefinition → SymbolTable → Env → Option (SymbolTable × Env)
  | [], table, env => some (table, env)
  | .customType t :: rest, table, env =>
    let (sum_id, sums1) := table.sums.newId
    pass1 rest { table with sums := sums1 } (envSet env t.name (.sumId sum_id))
  | .function f :: rest, table, env =>
    let (function_id, functions1) := table.functions.newId
    pass1 rest { table with functions := functions1 }
      (envSet env f.name (.functionId function_id))
  | _ :: _, _, _ => none

/-- Mutable assembler state threaded through the second pass: symbol
table, the `constants` vector of globals, and the root environment. -/
structure AssemblerState where
  table : SymbolTable
  constants : List WasmGlobal
  env : Env

/-- SECOND PASS, one variant of a custom type (the body of the
constructor loop in `construct_module`): synthesise the product struct
type, the constructor signature and `Function` entity, the `Product`
entity, and for zero-arity variants the singleton global. -/
def processVariant (t_name : String) (sum_id sum_type_id : Nat)
    (st : AssemblerState) (tag : Nat) (variant : RecordConstructor) :
    Option (AssemblerState × Nat) := do
  let (product_type_id, types1) := st.table.types.newId
  let product_type_name := "typ@" ++ t_name ++ "." ++ variant.name
  let table1 := { st.table with types := types1 }
  let ptdef ← from_product_type variant product_type_name product_type_id tag
    sum_type_id table1 st.env
  let table2 := { table1 with
    types := table1.types.insert product_type_id
      ⟨product_type_id, product_type_name, ptdef⟩ }
  let (constructor_sig_id, types3) := table2.types.newId
  let constructor_sig_name := "new@" ++ t_name ++ "." ++ variant.name
  let table3 := { table2 with types := types3 }
  let csdef ← from_product_type_constructor variant constructor_sig_name
    product_type_id constructor_sig_id table3 st.env
  let table4 := { table3 with
    types := table3.types.insert constructor_sig_id
      ⟨constructor_sig_id, constructor_sig_name, csdef⟩ }
  let (constructor_id, functions1) := table4.functions.newId
  let table5 := { table4 with
    functions := functions1.insert constructor_id
      ⟨constructor_id, constructor_sig_id, variant.name, variant.arguments.length⟩ }
  let (product_id, products1) := table5.products.newId
  let table6 := { table5 with products := products1 }
  if variant.arguments.isEmpty then
    let global_name := "global@" ++ t_name ++ "." ++ variant.name
    let (global_id, consts1) := table6.constants.newId
    let table7 := { table6 with
      constants := consts1.insert global_id ⟨global_id, global_name, product_type_id⟩ }
    let product : Product :=
      ⟨product_id, "product@" ++ t_name ++ "." ++ variant.name, product_type_id,
        sum_id, tag, constructor_id, .simple global_id, []⟩
    let table8 := { table7 with products := table7.products.insert product_id product }
    some ({ table := table8,
            constants := st.constants ++
              [⟨global_name, global_id, product_type_id, [.call constructor_id]⟩],
            env := envSet st.env variant.name (.productId product_id) }, product_id)
  else
    let fields ← variant.arguments.enum.mapM (fun x => do
      let label := match x.2.label with
        | none => "arg" ++ toString x.1
        | some l => l
      let wt ← from_gleam_type x.2.type_ st.env table6
      some (⟨label, x.1, wt⟩ : ProductField))
    let product : Product :=
      ⟨product_id, "product@" ++ t_name ++ "." ++ variant.name, product_type_id,
        sum_id, tag, constructor_id, .composite, fields⟩
    let table7 := { table6 with products := table6.products.insert product_id product }
    some ({ table := table7, constants := st.constants,
            env := envSet st.env variant.name (.productId product_id) }, product_id)

def processVariants (t_name : String) (sum_id sum_type_id : Nat) :
    List (Nat × RecordConstructor) → AssemblerState → List Nat →
    Option (AssemblerState × List Nat)
  | [], st, pids => some (st, pids)
  | (tag, v) :: rest, st, pids => do
    let (st', pid) ← processVariant t_name sum_id sum_type_id st tag v
    processVariants t_name sum_id sum_type_id rest st' (pids ++ [pid])

/-- SECOND PASS, one definition: synthesise signatures and entities. -/
def processDef2 (st : AssemblerState) : TypedDefinition → Option AssemblerState
  | .function f => do
    let fid ← match envGet st.env f.name with
      | some (.functionId id) => some id
      | _ => none
    let (function_type_id, types1) := st.table.types.newId
    let function_type_name := "fun@" ++ f.name
    let table1 := { st.table with types := types1 }
    let ftdef ← from_function f function_type_name function_type_id table1 st.env
    let table2 := { table1 with
      types := table1.types.insert function_type_id
        ⟨function_type_id, function_type_name, ftdef⟩ }
    let table3 := { table2 with
      functions := table2.functions.insert fid
        ⟨fid, function_type_id, f.name, f.arguments.length⟩ }
    some { st with table := table3, env := envSet st.env f.name (.functionId fid) }
  | .customType t => do
    if t.parameters ≠ [] then none
    else do
      let sum_id ← match envGet st.env t.name with
        | some (.sumId id) => some id
        | _ => none
      let (sum_type_id, types1) := st.table.types.newId
      let sum_type_name := "sum@" ++ t.name
      let table1 := { st.table with
        types := types1.insert sum_type_id
          ⟨sum_type_id, sum_type_name, ⟨sum_type_name, sum_type_id, .sum⟩⟩ }
      let st1 : AssemblerState :=
        { table := table1, constants := st.constants,
          env := envSet st.env t.name (.sumId sum_id) }
      let (st2, product_ids) ←
        processVariants t.name sum_id sum_type_id t.constructors.enum st1 []
      some { st2 with table := { st2.table with
        sums := st2.table.sums.insert sum_id ⟨sum_id, t.name, sum_type_id, product_ids⟩ } }
  | _ => none

def pass2 : List TypedDefinition → AssemblerState → Option AssemblerState
  | [], st => some st
  | d :: rest, st => do
    let st' ← processDef2 st d
    pass2 rest st'

/-- THIRD PASS: emit function bodies and variant constructor bodies, in
definition order. -/
def pass3 : List TypedDefinition → SymbolTable → Env → Option (List WasmFunction)
  | [], _, _ => some []
  | .function f :: rest, table, env =>
    (match envGet env f.name with
    | some (.functionId id) => do
      let function_data ← table.functions.get id
      let fn ← emit_function f function_data.id table env
      let rest' ← pass3 rest table env
      some (fn :: rest')
    | _ => none)
  | .customType c :: rest, table, env => do
    let ctors ← c.constructors.mapM (fun variant =>
      match envGet env variant.name with
      | some (.productId id) => do
        let table_product ← table.products.get id
        emit_variant_constructor variant table_product table
      | _ => none)
    let rest' ← pass3 rest table env
    some (ctors ++ rest')
  | _ :: _, _, _ => none

/-- `construct_module` (mod.rs): prelude bindings, the three passes, and
the final `WasmModule` whose types are the symbol table's type entries in
ascending id order (types are inserted in allocation order, so the store's
insertion list is already ascending). -/
def construct_module (ast : TypedModule) : Option WasmModule := do
  let env0 := generate_prelude_types []
  let (table1, env1) ← pass1 ast.definitions SymbolTable.empty env0
  let st ← pass2 ast.definitions ⟨table1, [], env1⟩
  let functions ← pass3 ast.definitions st.table st.env
  some { functions := functions, constants := st.constants,
         types := st.table.types.items.map (fun x => x.2.definition) }

/-! ## Binary encoder (`emit`, encoder.rs), modelled at the granularity of
the `wasm_encoder` API: sections and their entries.  The byte-level
serialisation below that API is the external `wasm_encoder` crate. -/

/-- `wasm_encoder::ValType` as used here. -/
inductive ValType
  | i32
  | f64
  | ref (nullable : Bool) (heapIdx : Nat)
  deriving DecidableEq, Repr

/-- `WasmTypeImpl::to_val_type`: the canonical integer value type is
32-bit (`integer::VAL_TYPE`, spec §4.A); booleans and Nil are represented
as `i32`; struct references are non-nullable concrete refs. -/
def to_val_type : WasmTypeImpl → ValType
  | .int => .i32
  | .float => .f64
  | .bool => .i32
  | .nil => .i32
  | .structRef t => .ref false t

/-- A struct field as encoded (`wasm_encoder::FieldType`, storage always
`Val`). -/
structure FieldTypeE where
  element_type : ValType
  mutable_ : Bool
  deriving DecidableEq, Repr

/-- The immutable integer tag field prepended to every sum/product. -/
def tag_field : FieldTypeE := ⟨.i32, false⟩

/-- One entry of the type section: either `types.function(params, results)`
or `types.subtype(SubType {is_final, supertype_idx, struct fields})`. -/
inductive TypeEntry
  | func (parameters : List ValType) (results : List ValType)
  | sub (is_final : Bool) (supertype_idx : Option Nat) (fields : List FieldTypeE)
  deriving DecidableEq, Repr

/-- The encoder's per-type encoding (the match inside the type-section
loop of `emit`). -/
def encodeTypeEntry (t : WasmType) : TypeEntry :=
  match t.definition with
  | .function parameters returns =>
    .func (parameters.map to_val_type) [to_val_type returns]
  | .sum => .sub false none [tag_field]
  | .product supertype_index _tag fields =>
    .sub true (some supertype_index)
      (tag_field :: fields.map (fun f => ⟨to_val_type f, false⟩))

/-- One entry of the global section: nullable mutable concrete ref,
initialised `ref.null`. -/
structure GlobalEntry where
  val_type : ValType
  mutable_ : Bool
  init_ref_null : Nat
  deriving DecidableEq, Repr

/-- One entry of the code section: run-length locals and the body. -/
structure CodeEntry where
  locals : List (Nat × ValType)
  body : List Instr
  deriving DecidableEq, Repr

/-- The name section payload: function, local (per function), type and
global name maps, in the order the encoder appends them. -/
structure NamesE where
  functions : List (Nat × String)
  locals : List (Nat × List (Nat × String))
  types : List (Nat × String)
  globals : List (Nat × String)
  deriving DecidableEq, Repr

inductive Section
  | typeSec (entries : List TypeEntry)
  | functionSec (type_indices : List Nat)
  | globalSec (entries : List GlobalEntry)
  | startSec (function_index : Nat)
  | elementSec (declared_functions : List Nat)
  | codeSec (entries : List CodeEntry)
  | nameSec (names : NamesE)
  deriving DecidableEq, Repr

/-- The Wasm binary section id of each section (custom name section = 0). -/
def sectionId : Section → Nat
  | .typeSec _ => 1
  | .functionSec _ => 3
  | .globalSec _ => 6
  | .startSec _ => 8
  | .elementSec _ => 9
  | .codeSec _ => 10
  | .nameSec _ => 0

/-- Stable insertion of `x` into `l` by `key` (ascending). -/
def sortInsert {α : Type} (key : α → Nat) (x : α) : List α → List α
  | [] => [x]
  | y :: r => if key x ≤ key y then x :: y :: r else y :: sortInsert key x r

/-- Stable sort by key, modelling Rust's `sort_by_key`. -/
def sortByKey {α : Type} (key : α → Nat) : List α → List α
  | [] => []
  | x :: r => sortInsert key x (sortByKey key r)

/-- The start-function body: every global's initializer followed by
`global.set` of its index, terminated by `end`. -/
def startBody : List WasmGlobal → List Instr
  | [] => [.iend]
  | g :: r => g.initializer ++ .globalSet g.global_index :: startBody r

/-- The local name map of one function: named arguments first (at their
argument index), then the body locals offset by the argument count. -/
def localNameMap (f : WasmFunction) : List (Nat × String) :=
  (f.argument_names.enum.filterMap (fun x =>
      match x.2 with
      | some n => some (x.1, n)
      | none => none))
    ++ f.locals.enum.map (fun x => (x.1 + f.argument_names.length, x.2.1))

/-- `emit` (encoder.rs): sort types by id, functions by function index and
globals by global index, then produce the sections in the fixed order
Type, Function, Global, Start, Element, Code, Name, appending the
synthesised start function (type `() → ()`, last function index). -/
def emit (wasm_module : WasmModule) : List Section :=
  let types := sortByKey (fun t => t.id) wasm_module.types
  let functions := sortByKey (fun f => f.function_index) wasm_module.functions
  let constants := sortByKey (fun g => g.global_index) wasm_module.constants
  let init_function_type_idx := types.length
  let init_function_idx := functions.length
  [ .typeSec (types.map encodeTypeEntry ++ [.func [] []]),
    .functionSec (functions.map (fun f => f.type_index) ++ [init_function_type_idx]),
    .globalSec (constants.map (fun g => ⟨.ref true g.type_index, true, g.type_index⟩)),
    .startSec init_function_idx,
    .elementSec (List.range functions.length),
    .codeSec (functions.map (fun f =>
        ⟨f.locals.map (fun l => (1, to_val_type l.2)), f.instructions⟩)
      ++ [⟨[], startBody constants⟩]),
    .nameSec
      { functions := functions.map (fun f => (f.function_index, f.name))
          ++ [(init_function_idx, "init@")],
        locals := functions.map (fun f => (f.function_index, localNameMap f))
          ++ [(init_function_idx, [])],
        types := types.map (fun t => (t.id, t.name))
          ++ [(init_function_type_idx, "typ@init")],
        globals := constants.map (fun g => (g.global_index, g.name)) } ]

lemma ext_trans {l1 l2 l3 : LocalStore} (h1 : ∃ e, l2 = l1 ++ e)
    (h2 : ∃ e, l3 = l2 ++ e) : ∃ e, l3 = l1 ++ e := by
  obtain ⟨a, rfl⟩ := h1
  obtain ⟨b, rfl⟩ := h2
  exact ⟨a ++ b, by simp⟩

/-- The emitters only append to the local store: every successful emission
returns the input store extended by the newly allocated locals. -/
theorem emit_statement_list_locals :
    ∀ (l : List TypedExpr) (env : Env) (locals : LocalStore) (table : SymbolTable)
      (code : List Instr) (locals' : LocalStore),
      emit_statement_list l env locals table = some (code, locals') →
      ∃ ext, locals' = locals ++ ext := by
  have H := emit_statement_list.induct
    (fun e env locals table => ∀ code locals',
      emit_expression e env locals table = some (code, locals') →
      ∃ ext, locals' = locals ++ ext)
    (fun l env locals table => ∀ code locals',
      emit_call_args l env locals table = some (code, locals') →
      ∃ ext, locals' = locals ++ ext)
    (fun env locals table op left right => ∀ code locals',
      emit_binary_operation env locals table op left right = some (code, locals') →
      ∃ ext, locals' = locals ++ ext)
    (fun l env locals table => ∀ code locals',
      emit_statement_list l env locals table = some (code, locals') →
      ∃ ext, locals' = locals ++ ext)
  apply H <;> clear H
  all_goals intros
  all_goals rename_i ih2 ih1 code locals' hmain
  all_goals simp only [emit_expression, emit_call_args, emit_binary_operation,
    emit_statement_list, Option.bind_eq_some, Option.some.injEq,
    Prod.mk.injEq] at hmain
  all_goals try simp_all [Option.bind_eq_some]
  all_goals
    first
    | (obtain ⟨a, ha, hb⟩ := hmain
       exact ih1 _ _ ha)
    | (obtain ⟨a, b, ha, c, hc, hb⟩ := hmain
       exact ext_trans (ih2 _ _ ha) (ih1 _ _ _ hc))
    | (obtain ⟨a, b, ha, c, hc, hb⟩ := hmain
       exact ext_trans (ext_trans ⟨_, rfl⟩ (ih2 _ _ ha)) (ih1 _ _ _ hc))
    | (obtain ⟨a, b, ha, hmatch⟩ := hmain
       obtain ⟨e, rfl⟩ := ih1 _ _ ha
       split at hmatch <;> (try split at hmatch) <;> (try split at hmatch) <;>
         simp_all <;> exact ⟨e, hmatch.2.symm⟩)

/-! ## Claims C1–C3: division and remainder by zero -/

/-- A host function environment with no callable functions (the emitted
arithmetic code performs no calls). -/
def fenvEmpty : FEnv := fun _ => none

/-- **C1** (claim refuted; the code is the bug).  The claim says the
lowered division `a / b` with zero divisor does not trap and leaves 0 on
the stack.  The emitted instruction sequence for the integer division
`1 / 0` — condition `rhs == 0`, then-branch `local.get rhs; i32.div_s` —
takes the *then*-branch when the divisor is zero and executes
`i32.div_s` with divisor 0, which traps.  The `if` arms are swapped
relative to the intent documented in the code's own comments. -/
theorem c1_divInt_zero_divisor_traps :
    emit_binary_operation [] [] SymbolTable.empty .divInt (.int "1") (.int "0") =
      some ([.i32Const 1, .i32Const 0, .localTee 0, .i32Const 0, .i32Eq,
             .iif .resultI32, .localGet 0, .i32DivS, .ielse, .drop, .localGet 0, .iend],
            [⟨0, "@fdiv_rhs_temp", .int⟩]) ∧
    run fenvEmpty
      [.i32Const 1, .i32Const 0, .localTee 0, .i32Const 0, .i32Eq,
       .iif .resultI32, .localGet 0, .i32DivS, .ielse, .drop, .localGet 0, .iend]
      ⟨[], [0]⟩ = .trap := by
  constructor
  · simp [emit_binary_operation, emit_expression, integer.parse, integer.const_,
      integer.eq, integer.div, integer.parseDigits, integer.digitVal]
  · simp [fenvEmpty, run, stepPure, splitThenAux, splitEndAux, depthStep, isIf, wrap32]

/-- **C2** (claim refuted; the code is the bug).  The claim says the
lowered integer division with a non-zero divisor leaves the signed
quotient on the stack.  For `7 / 2` the emitted sequence takes the
*else*-branch (condition `rhs == 0` is false), which drops the left
operand and returns the divisor: the result is `2`, not the quotient
`tdiv 7 2 = 3`. -/
theorem c2_divInt_nonzero_returns_divisor :
    emit_binary_operation [] [] SymbolTable.empty .divInt (.int "7") (.int "2") =
      some ([.i32Const 7, .i32Const 2, .localTee 0, .i32Const 0, .i32Eq,
             .iif .resultI32, .localGet 0, .i32DivS, .ielse, .drop, .localGet 0, .iend],
            [⟨0, "@fdiv_rhs_temp", .int⟩]) ∧
    run fenvEmpty
      [.i32Const 7, .i32Const 2, .localTee 0, .i32Const 0, .i32Eq,
       .iif .resultI32, .localGet 0, .i32DivS, .ielse, .drop, .localGet 0, .iend]
      ⟨[], [0]⟩ = .ok ⟨[2], [2]⟩ ∧
    Int.tdiv 7 2 = 3 ∧ (2 : Int) ≠ Int.tdiv 7 2 := by
  refine ⟨?_, ?_, by decide, by decide⟩
  · simp [emit_binary_operation, emit_expression, integer.parse, integer.const_,
      integer.eq, integer.div, integer.parseDigits, integer.digitVal]
  · simp [fenvEmpty, run, stepPure, splitThenAux, splitEndAux, depthStep, isIf, wrap32]

/-- **C3** (claim refuted; the code is the bug).  The claim says the
lowered remainder `a % b` with zero divisor does not trap and leaves 0.
`RemainderInt` is lowered with no divisor-zero guard at all — plain
`left; right; i32.rem_s` — so `7 % 0` executes `i32.rem_s` with divisor
0 and traps. -/
theorem c3_remainderInt_zero_divisor_traps :
    emit_binary_operation [] [] SymbolTable.empty .remainderInt (.int "7") (.int "0") =
      some ([.i32Const 7, .i32Const 0, .i32RemS], []) ∧
    run fenvEmpty [.i32Const 7, .i32Const 0, .i32RemS] ⟨[], []⟩ = .trap := by
  constructor
  · simp [emit_binary_operation, emit_expression, integer.parse, integer.const_,
      integer.rem, integer.parseDigits, integer.digitVal]
  · simp [fenvEmpty, run, stepPure, isIf]

/-! ## Claim C4: short-circuit `&&` and `||` -/

/-- **C4** (confirmed).  For a lowered `&&` (resp. `||`) expression, if
the code of the left operand evaluates to `c`, then when `c = 0` the
whole `&&` sequence evaluates to 0 — for *every* right-operand
instruction sequence `R`, which therefore is not executed — and when
`c ≠ 0` the whole `||` sequence evaluates to 1, again for every `R`. -/
theorem c4_short_circuit
    (env : Env) (locals locals1 locals2 : LocalStore) (table : SymbolTable)
    (l r : TypedExpr) (L R code : List Instr) (fenv : FEnv)
    (s0 s1 : State) (c : Int) (st : List Int)
    (hl : emit_expression l env locals table = some (L, locals1))
    (hr : emit_expression r env locals1 table = some (R, locals2))
    (hR : wellNested R)
    (hrun : run fenv L s0 = .ok s1)
    (hstk : s1.stack = c :: st) :
    (c = 0 →
      emit_binary_operation env locals table .and l r = some (code, locals2) →
      run fenv code s0 = .ok ⟨0 :: st, s1.locals⟩) ∧
    (c ≠ 0 →
      emit_binary_operation env locals table .or l r = some (code, locals2) →
      run fenv code s0 = .ok ⟨1 :: st, s1.locals⟩) := by
  obtain ⟨stk1, lc1⟩ := s1
  simp only [State.stack] at hstk
  subst hstk
  constructor
  · intro hc hcode
    subst hc
    rw [emit_binary_operation, hl] at hcode
    simp only [Option.bind_eq_bind, Option.some_bind] at hcode
    rw [hr] at hcode
    simp only [Option.bind_eq_bind, Option.some_bind, Option.some.injEq,
      Prod.mk.injEq] at hcode
    obtain ⟨hcode, -⟩ := hcode
    subst hcode
    simp only [List.append_assoc]
    rw [run_append_ok hrun]
    simp only [List.cons_append, List.nil_append]
    have hsplit : splitThenAux 0 (R ++ [Instr.ielse, Instr.i32Const 0, Instr.iend]) =
        some (R, true, [Instr.i32Const 0, Instr.iend]) := by
      rw [scanOk_splitThenAux hR]
      simp [splitThenAux, depthStep]
    have hend : splitEndAux 0 [Instr.i32Const 0, Instr.iend] =
        some ([Instr.i32Const 0], []) := by
      simp [splitEndAux, depthStep]
    rw [run_iif_else fenv _ _ 0 st lc1 R [Instr.i32Const 0, Instr.iend]
      [Instr.i32Const 0] [] hsplit hend]
    simp [run, stepPure, isIf]
  · intro hc hcode
    rw [emit_binary_operation, hl] at hcode
    simp only [Option.bind_eq_bind, Option.some_bind] at hcode
    rw [hr] at hcode
    simp only [Option.bind_eq_bind, Option.some_bind, Option.some.injEq,
      Prod.mk.injEq] at hcode
    obtain ⟨hcode, -⟩ := hcode
    subst hcode
    simp only [List.append_assoc]
    rw [run_append_ok hrun]
    simp only [List.cons_append, List.nil_append]
    have hsplit : splitThenAux 0 (Instr.i32Const 1 :: Instr.ielse :: (R ++ [Instr.iend])) =
        some ([Instr.i32Const 1], true, R ++ [Instr.iend]) := by
      simp [splitThenAux, depthStep]
    have hend : splitEndAux 0 (R ++ [Instr.iend]) = some (R, []) := by
      rw [scanOk_splitEndAux hR]
      simp [splitEndAux, depthStep]
    rw [run_iif_else fenv _ _ c st lc1 [Instr.i32Const 1] (R ++ [Instr.iend]) R []
      hsplit hend]
    simp [hc, run, stepPure, isIf]

/-- The prelude environment (`generate_prelude_types` over the empty
environment), used by the concrete examples. -/
def preludeEnvEx : Env := generate_prelude_types []

/-- Witness for `c4_short_circuit`: lowering `False && True` and running
the emitted sequence yields 0 without executing the right operand. -/
theorem c4_short_circuit_witness :
    run fenvEmpty
      [.i32Const 0, .iif .resultI32, .i32Const 1, .ielse, .i32Const 0, .iend]
      ⟨[], []⟩ = .ok ⟨[0], []⟩ := by
  have h := (c4_short_circuit preludeEnvEx [] [] [] SymbolTable.empty
    (.var "False" (.record "False" 0)) (.var "True" (.record "True" 0))
    [.i32Const 0] [.i32Const 1]
    [.i32Const 0, .iif .resultI32, .i32Const 1, .ielse, .i32Const 0, .iend]
    fenvEmpty ⟨[], []⟩ ⟨[0], []⟩ 0 []
    (by simp [emit_expression, preludeEnvEx, generate_prelude_types, envGet, envSet])
    (by simp [emit_expression, preludeEnvEx, generate_prelude_types, envGet, envSet])
    (by decide)
    (by simp [run, stepPure, isIf])
    rfl).1 rfl
    (by simp [emit_binary_operation, emit_expression, preludeEnvEx,
      generate_prelude_types, envGet, envSet, Option.bind_eq_bind, Option.some_bind])
  simpa using h

/-! ## Claim C9: bare module-function variables -/

/-- **C9** (confirmed).  A variable expression whose resolved constructor
variant is a module function, appearing outside call position, is lowered
to a single `call` instruction with no argument lowering (instead of
aborting as unsupported); executing `call` then consumes the callee's
arity in operands from the enclosing stack and pushes one result. -/
theorem c9_bare_module_fn_var (env : Env) (locals : LocalStore)
    (table : SymbolTable) (name fname : String) (id : Nat)
    (h : envGet env fname = some (.functionId id)) :
    emit_expression (.var name (.moduleFn fname)) env locals table =
      some ([.call id], locals) ∧
    ∀ (fenv : FEnv) (n : Nat) (g : List Int → Int) (s : State),
      fenv id = some (n, g) → n ≤ s.stack.length →
      run fenv [.call id] s =
        .ok ⟨g ((s.stack.take n).reverse) :: s.stack.drop n, s.locals⟩ := by
  constructor
  · simp [emit_expression, h]
  · intro fenv n g s hf hn
    rw [run_cons_step _ _ _ _ (by simp [isIf])]
    simp [stepPure, hf, hn, run]

/-- Witness for `c9_bare_module_fn_var`: a function of arity 2 referenced
bare consumes two operands from the stack. -/
theorem c9_bare_module_fn_var_witness :
    emit_expression (.var "g" (.moduleFn "f")) [("f", .functionId 0)] []
        SymbolTable.empty = some ([.call 0], []) ∧
    run (fun i => if i = 0 then some (2, fun args => args.foldl (· + ·) 0) else none)
      [.call 0] ⟨[10, 20], [5]⟩ = .ok ⟨[30], [5]⟩ := by
  have h := c9_bare_module_fn_var [("f", .functionId 0)] [] SymbolTable.empty
    "g" "f" 0 (by simp [envGet])
  refine ⟨h.1, ?_⟩
  have h2 := h.2
    (fun i => if i = 0 then some (2, fun args => args.foldl (· + ·) 0) else none)
    2 (fun args => args.foldl (· + ·) 0) ⟨[10, 20], [5]⟩ (by simp) (by simp)
  simpa using h2

/-! ## Claim C7: section order -/

/-- **C7** (confirmed).  For every input module the emitted binary
contains exactly the sections Type, Function, Global, Start, Element,
Code, Name, in that order (section ids 1, 3, 6, 8, 9, 10 and the custom
name section 0), each exactly once. -/
theorem c7_section_order (m : WasmModule) :
    (emit m).map sectionId = [1, 3, 6, 8, 9, 10, 0] ∧
    ((emit m).map sectionId).Nodup := by
  constructor
  · rfl
  · show ([1, 3, 6, 8, 9, 10, 0] : List Nat).Nodup
    decide

/-! ## Claim C8: determinism -/

/-- **C8** (confirmed).  The backend is a pure function of the typed AST:
`construct_module` followed by `emit` respects equality of inputs, so
running the generator twice on the same AST produces identical output up
to the `wasm_encoder` serialisation boundary (the byte serialiser below
that API is the external `wasm_encoder` crate). -/
theorem c8_determinism (ast1 ast2 : TypedModule) (h : ast1 = ast2) :
    (construct_module ast1).map emit = (construct_module ast2).map emit := by
  rw [h]

/-- A small complete module: a two-variant enum, a one-field record type
and an identity function, used as the concrete input of several
witnesses. -/
def exampleModule : TypedModule :=
  ⟨[ .customType ⟨"Color", [], [⟨"Red", []⟩, ⟨"Green", []⟩]⟩,
     .customType ⟨"Box", [], [⟨"BoxC", [⟨none, .int⟩]⟩]⟩,
     .function ⟨"id", [⟨some "x", .int⟩], .int, [.var "x" .localVariable]⟩ ]⟩

/-- Witness for `c8_determinism`. -/
theorem c8_determinism_witness :
    (construct_module exampleModule).map emit =
      (construct_module exampleModule).map emit :=
  c8_determinism exampleModule exampleModule rfl

/-! ## Claim C10: unnamed function arguments all share the literal name
`"#{idx}"` -/

lemma envGet_envSet_self (env : Env) (x : String) (b : Binding) :
    envGet (envSet env x b) x = some b := by
  simp [envGet, envSet, List.find?]

lemma envGet_envSet_ne (env : Env) (x y : String) (b : Binding) (h : y ≠ x) :
    envGet (envSet env x b) y = envGet env y := by
  have hbeq : (x == y) = false := by
    simpa [beq_iff_eq] using Ne.symm h
  simp [envGet, envSet, List.find?, hbeq]

lemma processArgs_extends :
    ∀ (args : List FnArg) (env : Env) (locals : LocalStore) (table : SymbolTable)
      (env' : Env) (locals' : LocalStore),
      processArgs args env locals table = some (env', locals') →
      ∃ ext, locals' = locals ++ ext := by
  intro args
  induction args with
  | nil =>
    intro env locals table env' locals' h
    simp only [processArgs, Option.some.injEq, Prod.mk.injEq] at h
    exact ⟨[], by simp [h.2]⟩
  | cons arg rest ih =>
    intro env locals table env' locals' h
    simp only [processArgs, Option.bind_eq_bind, Option.bind_eq_some] at h
    obtain ⟨wt, hwt, h⟩ := h
    exact ext_trans ⟨_, rfl⟩ (ih _ _ _ _ _ h)

lemma processArgs_locals_spec :
    ∀ (args : List FnArg) (env : Env) (locals : LocalStore) (table : SymbolTable)
      (env' : Env) (locals' : LocalStore),
      processArgs args env locals table = some (env', locals') →
      locals'.length = locals.length + args.length ∧
      ∀ i, i < args.length →
        (locals'[locals.length + i]?).map Local.name =
          (args[i]?).map (fun a => a.names.getD "#{idx}") := by
  intro args
  induction args with
  | nil =>
    intro env locals table env' locals' h
    simp only [processArgs, Option.some.injEq, Prod.mk.injEq] at h
    exact ⟨by simp [h.2.symm], by intro i hi; cases hi⟩
  | cons arg rest ih =>
    intro env locals table env' locals' h
    simp only [processArgs, Option.bind_eq_bind, Option.bind_eq_some] at h
    obtain ⟨wt, hwt, h⟩ := h
    obtain ⟨hlen, hidx⟩ := ih _ _ _ _ _ h
    constructor
    · simp at hlen
      simp [hlen]
      omega
    · intro i hi
      cases i with
      | zero =>
        obtain ⟨ext, hext⟩ := processArgs_extends _ _ _ _ _ _ h
        subst hext
        rw [List.append_assoc]
        rw [List.getElem?_append_right (by simp)]
        simp
      | succ i' =>
        have := hidx i' (by simpa using hi)
        simp only [List.length_append, List.length_cons, List.length_nil] at this
        rw [show locals.length + (i' + 1) = locals.length + 1 + i' from by omega]
        simpa using this

lemma processArgs_env_passthrough :
    ∀ (args : List FnArg) (env : Env) (locals : LocalStore) (table : SymbolTable)
      (env' : Env) (locals' : LocalStore) (x : String),
      processArgs args env locals table = some (env', locals') →
      (∀ a ∈ args, ∃ nm, a.names = some nm ∧ nm ≠ x) →
      envGet env' x = envGet env x := by
  intro args
  induction args with
  | nil =>
    intro env locals table env' locals' x h hnames
    simp only [processArgs, Option.some.injEq, Prod.mk.injEq] at h
    rw [← h.1]
  | cons arg rest ih =>
    intro env locals table env' locals' x h hnames
    simp only [processArgs, Option.bind_eq_bind, Option.bind_eq_some] at h
    obtain ⟨wt, hwt, h⟩ := h
    obtain ⟨nm, hnm, hne⟩ := hnames arg (by simp)
    rw [ih _ _ _ _ _ _ h (fun a ha => hnames a (by simp [ha]))]
    rw [hnm]
    exact envGet_envSet_ne _ _ _ _ (Ne.symm hne)

lemma processArgs_last_unnamed :
    ∀ (args : List FnArg) (env : Env) (locals : LocalStore) (table : SymbolTable)
      (env' : Env) (locals' : LocalStore) (j : Nat),
      processArgs args env locals table = some (env', locals') →
      (args[j]?).map FnArg.names = some none →
      (∀ k, j < k → ∀ a, args[k]? = some a → ∃ nm, a.names = some nm ∧ nm ≠ "#{idx}") →
      envGet env' "#{idx}" = some (.localId (locals.length + j)) := by
  intro args
  induction args with
  | nil =>
    intro env locals table env' locals' j h hj hrest
    simp at hj
  | cons arg rest ih =>
    intro env locals table env' locals' j h hj hrest
    simp only [processArgs, Option.bind_eq_bind, Option.bind_eq_some] at h
    obtain ⟨wt, hwt, h⟩ := h
    cases j with
    | zero =>
      have harg : arg.names = none := by simpa using hj
      rw [harg] at h
      have hpass := processArgs_env_passthrough _ _ _ _ _ _ "#{idx}" h ?later
      · rw [hpass]
        simp only [Option.getD_none]
        rw [envGet_envSet_self]
        rfl
      · intro a ha
        obtain ⟨k, hk, hget⟩ : ∃ k, rest[k]? = some a ∧ True := by
          obtain ⟨k, hk, hget⟩ := List.getElem_of_mem ha
          exact ⟨k, by rw [List.getElem?_eq_getElem hk, hget], trivial⟩
        exact hrest (k + 1) (by omega) a (by simpa using hk)
    | succ j' =>
      rw [ih _ _ _ _ _ j' h (by simpa using hj)
        (fun k hk a ha => hrest (k + 1) (by omega) a (by simpa using ha))]
      have hlen2 : ∀ (L : Local), (locals ++ [L]).length + j' = locals.length + (j' + 1) := by
        intro L
        simp
        omega
      rw [hlen2]

/-- **C10** (confirmed).  Every argument whose pattern binds no variable
name gets the *literal* local name `"#{idx}"` (the Rust string is not
interpolated), so two unnamed arguments at positions `i < j` share that
single name; the environment binding of `"#{idx}"` after the argument
loop is the *later* argument's local (shadowing the earlier one), and the
name section's local map for the function records the duplicate name at
both indices. -/
theorem c10_unnamed_arguments
    (f : TypedFunction) (fid : Nat) (table : SymbolTable) (env0 : Env)
    (fd : TableFunction) (wf : WasmFunction) (i j : Nat)
    (hij : i < j) (hj : j < f.arguments.length)
    (hfd : table.functions.get fid = some fd)
    (harity : fd.arity = f.arguments.length)
    (hf : emit_function f fid table env0 = some wf)
    (hi_un : (f.arguments[i]?).map FnArg.names = some none)
    (hj_un : (f.arguments[j]?).map FnArg.names = some none)
    (hlast : ∀ k, j < k → ∀ a, f.arguments[k]? = some a →
      ∃ nm, a.names = some nm ∧ nm ≠ "#{idx}") :
    wf.argument_names[i]? = some (some "#{idx}") ∧
    wf.argument_names[j]? = some (some "#{idx}") ∧
    (∃ env1 locals1, processArgs f.arguments env0 [] table = some (env1, locals1) ∧
      envGet env1 "#{idx}" = some (.localId j)) ∧
    (i, "#{idx}") ∈ localNameMap wf ∧ (j, "#{idx}") ∈ localNameMap wf := by
  rw [emit_function, hfd] at hf
  simp only [Option.bind_eq_bind, Option.some_bind, Option.bind_eq_some] at hf
  obtain ⟨⟨env1, locals1⟩, hpa, hf⟩ := hf
  obtain ⟨⟨body, locals2⟩, hbody, hf⟩ := hf
  obtain ⟨hlen1, hnames1⟩ := processArgs_locals_spec _ _ _ _ _ _ hpa
  simp only [List.length_nil, Nat.zero_add] at hlen1
  obtain ⟨ext, hext⟩ := emit_statement_list_locals _ _ _ _ _ _ hbody
  have hwf : wf.argument_names = (locals2.take fd.arity).map (fun l => some l.name) := by
    cases hf
    rfl
  have htake : locals2.take fd.arity = locals1 := by
    rw [hext, harity, ← hlen1, List.take_left]
  have hname : ∀ k, k < f.arguments.length →
      (f.arguments[k]?).map FnArg.names = some none →
      wf.argument_names[k]? = some (some "#{idx}") := by
    intro k hk hun
    rw [hwf, htake, List.getElem?_map]
    have hthis := hnames1 k hk
    simp only [List.length_nil, Nat.zero_add] at hthis
    obtain ⟨a, ha⟩ : ∃ a, f.arguments[k]? = some a :=
      ⟨f.arguments.get ⟨k, hk⟩, List.getElem?_eq_getElem hk⟩
    have hanone : a.names = none := by
      rw [ha] at hun
      simpa using hun
    rw [ha] at hthis
    simp only [Option.map_some', hanone, Option.getD_none] at hthis
    obtain ⟨L, hL, hLname⟩ : ∃ L, locals1[k]? = some L ∧ L.name = "#{idx}" := by
      cases hL' : locals1[k]? with
      | none => rw [hL'] at hthis; simp at hthis
      | some L =>
        rw [hL'] at hthis
        exact ⟨L, rfl, by simpa using hthis⟩
    rw [hL]
    simp [hLname]
  have hi' : wf.argument_names[i]? = some (some "#{idx}") :=
    hname i (Nat.lt_trans hij hj) hi_un
  have hj' : wf.argument_names[j]? = some (some "#{idx}") := hname j hj hj_un
  refine ⟨hi', hj', ⟨env1, locals1, hpa, ?_⟩, ?_, ?_⟩
  · have := processArgs_last_unnamed _ _ _ _ _ _ j hpa hj_un hlast
    simpa using this
  · apply List.mem_append.mpr
    apply Or.inl
    apply List.mem_filterMap.mpr
    refine ⟨(i, some "#{idx}"), ?_, by simp⟩
    apply List.getElem?_mem
    rw [List.getElem?_enum, hi']
    rfl
  · apply List.mem_append.mpr
    apply Or.inl
    apply List.mem_filterMap.mpr
    refine ⟨(j, some "#{idx}"), ?_, by simp⟩
    apply List.getElem?_mem
    rw [List.getElem?_enum, hj']
    rfl

/-- Witness for `c10_unnamed_arguments`: a two-argument function with both
patterns unnamed — both locals are called `"#{idx}"`, the environment
binds `"#{idx}"` to the second argument's local, and the name map holds
the duplicate name at indices 0 and 1. -/
theorem c10_unnamed_arguments_witness :
    emit_function ⟨"f", [⟨none, .int⟩, ⟨none, .int⟩], .int, [.int "0"]⟩ 0
        { SymbolTable.empty with functions := ⟨1, [(0, ⟨0, 0, "f", 2⟩)]⟩ } [] =
      some ⟨"f", 0, [.i32Const 0, .iend], [], [some "#{idx}", some "#{idx}"], 0⟩ ∧
    (∃ env1 locals1,
      processArgs [⟨none, .int⟩, ⟨none, .int⟩] [] []
          { SymbolTable.empty with functions := ⟨1, [(0, ⟨0, 0, "f", 2⟩)]⟩ } =
        some (env1, locals1) ∧
      envGet env1 "#{idx}" = some (.localId 1)) ∧
    (0, "#{idx}") ∈
      localNameMap ⟨"f", 0, [.i32Const 0, .iend], [], [some "#{idx}", some "#{idx}"], 0⟩ ∧
    (1, "#{idx}") ∈
      localNameMap ⟨"f", 0, [.i32Const 0, .iend], [], [some "#{idx}", some "#{idx}"], 0⟩ := by
  have hf : emit_function ⟨"f", [⟨none, .int⟩, ⟨none, .int⟩], .int, [.int "0"]⟩ 0
      { SymbolTable.empty with functions := ⟨1, [(0, ⟨0, 0, "f", 2⟩)]⟩ } [] =
      some ⟨"f", 0, [.i32Const 0, .iend], [], [some "#{idx}", some "#{idx}"], 0⟩ := by
    simp [emit_function, Store.get, List.find?, processArgs, from_gleam_type,
      emit_statement_list, emit_expression, integer.parse, integer.const_,
      integer.parseDigits, integer.digitVal, envSet]
  have h := c10_unnamed_arguments
    ⟨"f", [⟨none, .int⟩, ⟨none, .int⟩], .int, [.int "0"]⟩ 0
    { SymbolTable.empty with functions := ⟨1, [(0, ⟨0, 0, "f", 2⟩)]⟩ } []
    ⟨0, 0, "f", 2⟩ ⟨"f", 0, [.i32Const 0, .iend], [], [some "#{idx}", some "#{idx}"], 0⟩
    0 1 (by decide) (by decide)
    (by simp [Store.get, List.find?]) rfl hf rfl rfl
    (by
      intro k hk a ha
      have hnone : ([(⟨none, .int⟩ : FnArg), ⟨none, .int⟩])[k]? = none :=
        List.getElem?_eq_none (by simpa using hk)
      rw [hnone] at ha
      cases ha)
  exact ⟨hf, h.2.2.1, h.2.2.2.1, h.2.2.2.2⟩

/-! ## Sorting and store lemmas for the assembler invariants -/

lemma mem_sortInsert {α : Type} (key : α → Nat) (x a : α) :
    ∀ (l : List α), a ∈ sortInsert key x l ↔ a = x ∨ a ∈ l := by
  intro l
  induction l with
  | nil => simp [sortInsert]
  | cons y r ih =>
    rw [sortInsert]
    split_ifs with hle
    · simp
    · simp [ih]
      tauto

lemma mem_sortByKey {α : Type} (key : α → Nat) (a : α) :
    ∀ (l : List α), a ∈ sortByKey key l ↔ a ∈ l := by
  intro l
  induction l with
  | nil => simp [sortByKey]
  | cons x r ih =>
    rw [sortByKey, mem_sortInsert]
    simp [ih]

lemma sortByKey_eq_self {α : Type} (key : α → Nat) :
    ∀ (l : List α), List.Pairwise (fun a b => key a ≤ key b) l →
      sortByKey key l = l := by
  intro l
  induction l with
  | nil => simp [sortByKey]
  | cons x r ih =>
    intro hp
    rw [List.pairwise_cons] at hp
    rw [sortByKey, ih hp.2]
    cases r with
    | nil => rfl
    | cons y r' =>
      rw [sortInsert, if_pos (hp.1 y (by simp))]

lemma getElem?_some_lt {α : Type} {l : List α} {i : Nat} {a : α}
    (h : l[i]? = some a) : i < l.length := by
  by_contra hn
  rw [List.getElem?_eq_none (Nat.le_of_not_lt hn)] at h
  cases h

lemma countP_eq_one_of_pairwise {l : List WasmGlobal} {T : Nat}
    (hp : List.Pairwise (fun a b => a.type_index < b.type_index) l)
    (hmem : ∃ g ∈ l, g.type_index = T) :
    l.countP (fun g => g.type_index == T) = 1 := by
  induction l with
  | nil => simp at hmem
  | cons g r ih =>
    rw [List.pairwise_cons] at hp
    by_cases hg : g.type_index = T
    · have hzero : r.countP (fun g' => g'.type_index == T) = 0 := by
        rw [List.countP_eq_zero]
        intro g' hg'
        have := hp.1 g' hg'
        simp [beq_iff_eq]
        omega
      rw [List.countP_cons]
      simp [hg, hzero]
    · obtain ⟨g', hg', hT⟩ := hmem
      rcases List.mem_cons.mp hg' with rfl | hmm
      · exact absurd hT hg
      · rw [List.countP_cons]
        simp [hg, ih hp.2 ⟨g', hmm, hT⟩]

/-- The assembler-state invariant maintained through the second pass:
every product type entry points (via `supertype_index`) at a sum type
entry; type ids are bounded by the allocator; the globals vector is
indexed densely `0..n-1` in allocation order and in sync with the
constants store; the globals' declared type indices are strictly
increasing (hence distinct) and bounded; and every Simple product's
`inst` global exists, carries the product's type index and initialises by
calling the product's constructor. -/
structure Inv (st : AssemblerState) : Prop where
  prodSum : ∀ p ∈ st.table.types.items, ∀ sup tag fields,
    p.2.definition.definition = .product sup tag fields →
    ∃ q ∈ st.table.types.items, q.2.definition.definition = .sum ∧
      q.2.definition.id = sup
  typesNextLe : ∀ p ∈ st.table.types.items, p.2.definition.id < st.table.types.next
  constIdx : st.constants.map (fun g => g.global_index) = List.range st.constants.length
  constNext : st.table.constants.next = st.constants.length
  constTypeBound : ∀ g ∈ st.constants, g.type_index < st.table.types.next
  constTypeSorted : List.Pairwise (fun a b => a.type_index < b.type_index) st.constants
  prodGlobal : ∀ p ∈ st.table.products.items, ∀ gi, p.2.kind = .simple gi →
    ∃ g, st.constants[gi]? = some g ∧ g.type_index = p.2.type_ ∧
      g.initializer = [.call p.2.constructor]

lemma processVariant_inv
    (t_name : String) (sum_id sum_type_id : Nat) (st : AssemblerState)
    (tag : Nat) (variant : RecordConstructor) (st' : AssemblerState) (pid : Nat)
    (h : processVariant t_name sum_id sum_type_id st tag variant = some (st', pid))
    (hinv : Inv st)
    (hsum : ∃ q ∈ st.table.types.items, q.2.definition.definition = .sum ∧
      q.2.definition.id = sum_type_id) :
    Inv st' ∧
    (∃ ext, st'.table.types.items = st.table.types.items ++ ext) ∧
    st.table.types.next ≤ st'.table.types.next := by
  simp only [processVariant, from_product_type, from_product_type_constructor,
    Store.newId, Store.insert, Option.bind_eq_bind, Option.bind_eq_some] at h
  obtain ⟨ptdef, hpt, h⟩ := h
  obtain ⟨fields, hfields, hptdef⟩ := hpt
  rw [Option.some.injEq] at hptdef
  subst hptdef
  obtain ⟨csdef, hcs, h⟩ := h
  obtain ⟨cfields, hcfields, hcsdef⟩ := hcs
  rw [Option.some.injEq] at hcsdef
  subst hcsdef
  obtain ⟨hPS, hTN, hCI, hCN, hCB, hCS, hPG⟩ := hinv
  by_cases hemp : variant.arguments.isEmpty
  · rw [if_pos hemp, Option.some.injEq, Prod.mk.injEq] at h
    obtain ⟨hst, hpid⟩ := h
    subst hst
    refine ⟨⟨?_, ?_, ?_, ?_, ?_, ?_, ?_⟩, ⟨_, List.append_assoc _ _ _⟩,
      (by omega : st.table.types.next ≤ st.table.types.next + 1 + 1)⟩
    · intro p hp sup tg fs hdef
      simp only [List.append_assoc, List.mem_append, List.mem_singleton] at hp
      rcases hp with hp | hp | hp
      · obtain ⟨q, hq, hq2, hq3⟩ := hPS p hp sup tg fs hdef
        exact ⟨q, by simp [hq], hq2, hq3⟩
      · subst hp
        simp only at hdef
        obtain ⟨hsup, htg, hfs⟩ : sum_type_id = sup ∧ tag = tg ∧ fields = fs := by
          simpa using hdef
        obtain ⟨q, hq, hq2, hq3⟩ := hsum
        exact ⟨q, by simp [hq], hq2, by rw [hq3, hsup]⟩
      · subst hp
        simp at hdef
    · intro p hp
      simp only [List.append_assoc, List.mem_append, List.mem_singleton] at hp
      rcases hp with hp | hp | hp
      · exact Nat.lt_of_lt_of_le (hTN p hp)
          (show st.table.types.next ≤ st.table.types.next + 1 + 1 by omega)
      · subst hp
        show st.table.types.next < st.table.types.next + 1 + 1
        omega
      · subst hp
        show st.table.types.next + 1 < st.table.types.next + 1 + 1
        omega
    · simp only [List.map_append, hCI, List.map_cons, List.map_nil, hCN]
      rw [List.length_append]
      simp [List.range_succ]
    · simp [hCN]
    · intro g hg
      simp only [List.mem_append, List.mem_singleton] at hg
      rcases hg with hg | hg
      · exact Nat.lt_of_lt_of_le (hCB g hg)
          (show st.table.types.next ≤ st.table.types.next + 1 + 1 by omega)
      · subst hg
        show st.table.types.next < st.table.types.next + 1 + 1
        omega
    · rw [List.pairwise_append]
      refine ⟨hCS, by simp, ?_⟩
      intro a ha b hb
      simp only [List.mem_singleton] at hb
      subst hb
      exact hCB a ha
    · intro p hp gi hgi
      simp only [List.mem_append, List.mem_singleton] at hp
      rcases hp with hp | hp
      · obtain ⟨g, hg1, hg2, hg3⟩ := hPG p hp gi hgi
        have hlt := getElem?_some_lt hg1
        refine ⟨g, ?_, hg2, hg3⟩
        rw [List.getElem?_append]
        rw [if_pos hlt]
        exact hg1
      · subst hp
        simp only at hgi
        obtain rfl : st.table.constants.next = gi := by simpa using hgi
        refine ⟨⟨"global@" ++ t_name ++ "." ++ variant.name, st.table.constants.next,
          st.table.types.next, [Instr.call st.table.functions.next]⟩, ?_, rfl, rfl⟩
        rw [hCN, List.getElem?_append_right (Nat.le_refl _)]
        simp
  · rw [if_neg hemp] at h
    simp only [Option.bind_eq_bind, Option.bind_eq_some] at h
    obtain ⟨pfields, hpf, h⟩ := h
    rw [Option.some.injEq, Prod.mk.injEq] at h
    obtain ⟨hst, hpid⟩ := h
    subst hst
    refine ⟨⟨?_, ?_, hCI, hCN, ?_, hCS, ?_⟩, ⟨_, List.append_assoc _ _ _⟩,
      (by omega : st.table.types.next ≤ st.table.types.next + 1 + 1)⟩
    · intro p hp sup tg fs hdef
      simp only [List.append_assoc, List.mem_append, List.mem_singleton] at hp
      rcases hp with hp | hp | hp
      · obtain ⟨q, hq, hq2, hq3⟩ := hPS p hp sup tg fs hdef
        exact ⟨q, by simp [hq], hq2, hq3⟩
      · subst hp
        simp only at hdef
        obtain ⟨hsup, htg, hfs⟩ : sum_type_id = sup ∧ tag = tg ∧ fields = fs := by
          simpa using hdef
        obtain ⟨q, hq, hq2, hq3⟩ := hsum
        exact ⟨q, by simp [hq], hq2, by rw [hq3, hsup]⟩
      · subst hp
        simp at hdef
    · intro p hp
      simp only [List.append_assoc, List.mem_append, List.mem_singleton] at hp
      rcases hp with hp | hp | hp
      · exact Nat.lt_of_lt_of_le (hTN p hp)
          (show st.table.types.next ≤ st.table.types.next + 1 + 1 by omega)
      · subst hp
        show st.table.types.next < st.table.types.next + 1 + 1
        omega
      · subst hp
        show st.table.types.next + 1 < st.table.types.next + 1 + 1
        omega
    · intro g hg
      exact Nat.lt_of_lt_of_le (hCB g hg)
        (show st.table.types.next ≤ st.table.types.next + 1 + 1 by omega)
    · intro p hp gi hgi
      simp only [List.mem_append, List.mem_singleton] at hp
      rcases hp with hp | hp
      · exact hPG p hp gi hgi
      · subst hp
        simp at hgi

lemma processVariants_inv :
    ∀ (lst : List (Nat × RecordConstructor)) (t_name : String)
      (sum_id sum_type_id : Nat) (st : AssemblerState) (pids : List Nat)
      (st' : AssemblerState) (pids' : List Nat),
      processVariants t_name sum_id sum_type_id lst st pids = some (st', pids') →
      Inv st →
      (∃ q ∈ st.table.types.items, q.2.definition.definition = .sum ∧
        q.2.definition.id = sum_type_id) →
      Inv st' ∧ (∃ ext, st'.table.types.items = st.table.types.items ++ ext) := by
  intro lst
  induction lst with
  | nil =>
    intro t_name sum_id sum_type_id st pids st' pids' h hinv hsum
    simp only [processVariants, Option.some.injEq, Prod.mk.injEq] at h
    obtain ⟨rfl, -⟩ := h
    exact ⟨hinv, ⟨[], by simp⟩⟩
  | cons x rest ih =>
    intro t_name sum_id sum_type_id st pids st' pids' h hinv hsum
    obtain ⟨tag, v⟩ := x
    simp only [processVariants, Option.bind_eq_bind, Option.bind_eq_some] at h
    obtain ⟨⟨st1, pid⟩, h1, h⟩ := h
    obtain ⟨hinv1, ⟨ext1, hext1⟩, -⟩ :=
      processVariant_inv _ _ _ _ _ _ _ _ h1 hinv hsum
    obtain ⟨q, hq, hq2, hq3⟩ := hsum
    obtain ⟨hinv', ⟨ext2, hext2⟩⟩ := ih _ _ _ _ _ _ _ h hinv1
      ⟨q, by rw [hext1]; exact List.mem_append_left _ hq, hq2, hq3⟩
    refine ⟨hinv', ⟨ext1 ++ ext2, ?_⟩⟩
    rw [hext2, hext1, List.append_assoc]

lemma processDef2_inv (st : AssemblerState) (d : TypedDefinition)
    (st' : AssemblerState) (h : processDef2 st d = some st') (hinv : Inv st) :
    Inv st' := by
  obtain ⟨hPS, hTN, hCI, hCN, hCB, hCS, hPG⟩ := hinv
  cases d with
  | importDef => simp [processDef2] at h
  | typeAlias => simp [processDef2] at h
  | moduleConstant => simp [processDef2] at h
  | function f =>
    cases henv : envGet st.env f.name with
    | none => simp [processDef2, henv] at h
    | some b =>
      cases b with
      | localId id => simp [processDef2, henv] at h
      | productId id => simp [processDef2, henv] at h
      | sumId id => simp [processDef2, henv] at h
      | builtin bt => simp [processDef2, henv] at h
      | functionId id =>
        simp only [processDef2, henv, from_function, Store.newId, Store.insert,
          Option.bind_eq_bind, Option.some_bind, Option.bind_eq_some] at h
        obtain ⟨ftdef, hft, h⟩ := h
        obtain ⟨params, hparams, hft2⟩ := hft
        obtain ⟨returns, hreturns, hft3⟩ := hft2
        rw [Option.some.injEq] at hft3
        subst hft3
        rw [Option.some.injEq] at h
        subst h
        refine ⟨?_, ?_, hCI, hCN, ?_, hCS, hPG⟩
        · intro p hp sup tg fs hdef
          simp only [List.mem_append, List.mem_singleton] at hp
          rcases hp with hp | hp
          · obtain ⟨q, hq, hq2, hq3⟩ := hPS p hp sup tg fs hdef
            exact ⟨q, by simp [hq], hq2, hq3⟩
          · subst hp
            simp at hdef
        · intro p hp
          simp only [List.mem_append, List.mem_singleton] at hp
          rcases hp with hp | hp
          · exact Nat.lt_of_lt_of_le (hTN p hp)
              (show st.table.types.next ≤ st.table.types.next + 1 by omega)
          · subst hp
            show st.table.types.next < st.table.types.next + 1
            omega
        · intro g hg
          exact Nat.lt_of_lt_of_le (hCB g hg)
            (show st.table.types.next ≤ st.table.types.next + 1 by omega)
  | customType t =>
    by_cases hpar : t.parameters = []
    · cases henv : envGet st.env t.name with
      | none => simp [processDef2, henv, hpar] at h
      | some b =>
        cases b with
        | localId id => simp [processDef2, henv, hpar] at h
        | productId id => simp [processDef2, henv, hpar] at h
        | functionId id => simp [processDef2, henv, hpar] at h
        | builtin bt => simp [processDef2, henv, hpar] at h
        | sumId sum_id =>
          simp only [processDef2, hpar, henv, Store.newId, Store.insert,
            Option.bind_eq_bind, Option.some_bind, Option.bind_eq_some,
            ne_eq, not_true_eq_false, if_false, ite_false] at h
          obtain ⟨⟨st2, product_ids⟩, h2, h⟩ := h
          rw [Option.some.injEq] at h
          subst h
          have hinv1 : Inv { table := { st.table with
                                        types := ⟨st.table.types.next + 1,
                                          st.table.types.items ++
                                            [(st.table.types.next,
                                              ⟨st.table.types.next, "sum@" ++ t.name,
                                                ⟨"sum@" ++ t.name, st.table.types.next,
                                                  .sum⟩⟩)]⟩ },
                             constants := st.constants,
                             env := envSet st.env t.name (.sumId sum_id) } := by
            refine ⟨?_, ?_, hCI, hCN, ?_, hCS, hPG⟩
            · intro p hp sup tg fs hdef
              simp only [List.mem_append, List.mem_singleton] at hp
              rcases hp with hp | hp
              · obtain ⟨q, hq, hq2, hq3⟩ := hPS p hp sup tg fs hdef
                exact ⟨q, by simp [hq], hq2, hq3⟩
              · subst hp
                simp at hdef
            · intro p hp
              simp only [List.mem_append, List.mem_singleton] at hp
              rcases hp with hp | hp
              · exact Nat.lt_of_lt_of_le (hTN p hp)
                  (show st.table.types.next ≤ st.table.types.next + 1 by omega)
              · subst hp
                show st.table.types.next < st.table.types.next + 1
                omega
            · intro g hg
              exact Nat.lt_of_lt_of_le (hCB g hg)
                (show st.table.types.next ≤ st.table.types.next + 1 by omega)
          obtain ⟨hinv2, -⟩ := processVariants_inv _ _ _ _ _ _ _ _ h2 hinv1
            ⟨(st.table.types.next,
              ⟨st.table.types.next, "sum@" ++ t.name,
                ⟨"sum@" ++ t.name, st.table.types.next, .sum⟩⟩),
              by simp, rfl, rfl⟩
          obtain ⟨hPS2, hTN2, hCI2, hCN2, hCB2, hCS2, hPG2⟩ := hinv2
          exact ⟨hPS2, hTN2, hCI2, hCN2, hCB2, hCS2, hPG2⟩
    · simp only [processDef2] at h
      rw [if_pos hpar] at h
      cases h

lemma pass2_inv :
    ∀ (defs : List TypedDefinition) (st st' : AssemblerState),
      pass2 defs st = some st' → Inv st → Inv st' := by
  intro defs
  induction defs with
  | nil =>
    intro st st' h hinv
    simp only [pass2, Option.some.injEq] at h
    subst h
    exact hinv
  | cons d rest ih =>
    intro st st' h hinv
    simp only [pass2, Option.bind_eq_bind, Option.bind_eq_some] at h
    obtain ⟨st1, h1, h⟩ := h
    exact ih _ _ h (processDef2_inv _ _ _ h1 hinv)

lemma pass1_stores :
    ∀ (defs : List TypedDefinition) (table : SymbolTable) (env : Env)
      (table' : SymbolTable) (env' : Env),
      pass1 defs table env = some (table', env') →
      table'.types = table.types ∧ table'.products = table.products ∧
        table'.constants = table.constants := by
  intro defs
  induction defs with
  | nil =>
    intro table env table' env' h
    simp only [pass1, Option.some.injEq, Prod.mk.injEq] at h
    simp [h.1.symm]
  | cons d rest ih =>
    intro table env table' env' h
    cases d with
    | customType t =>
      simp only [pass1] at h
      obtain ⟨h1, h2, h3⟩ := ih _ _ _ _ h
      exact ⟨h1, h2, h3⟩
    | function f =>
      simp only [pass1] at h
      obtain ⟨h1, h2, h3⟩ := ih _ _ _ _ h
      exact ⟨h1, h2, h3⟩
    | importDef => simp [pass1] at h
    | typeAlias => simp [pass1] at h
    | moduleConstant => simp [pass1] at h

/-! ## Claims C5 and C6: product encoding and simple-variant globals -/

/-- The entries of the type section of an emitted section list. -/
def typeSection? : List Section → Option (List TypeEntry)
  | [] => none
  | .typeSec es :: _ => some es
  | _ :: r => typeSection? r

/-- The entries of the global section of an emitted section list. -/
def globalSection? : List Section → Option (List GlobalEntry)
  | [] => none
  | .globalSec es :: _ => some es
  | _ :: r => globalSection? r

/-- The entries of the code section of an emitted section list. -/
def codeSection? : List Section → Option (List CodeEntry)
  | [] => none
  | .codeSec es :: _ => some es
  | _ :: r => codeSection? r

/-- The invariant really established for the final assembler state. -/
lemma construct_module_inv
    (defs : List TypedDefinition) (table1 : SymbolTable) (env1 : Env)
    (st2 : AssemblerState)
    (h1 : pass1 defs SymbolTable.empty (generate_prelude_types []) = some (table1, env1))
    (h2 : pass2 defs ⟨table1, [], env1⟩ = some st2) :
    Inv st2 := by
  obtain ⟨ht, hp, hc⟩ := pass1_stores _ _ _ _ _ h1
  apply pass2_inv _ _ _ h2
  refine ⟨?_, ?_, by simp, ?_, ?_, by simp, ?_⟩
  · intro p hp' sup tg fs hdef
    rw [ht] at hp'
    cases hp'
  · intro p hp'
    rw [ht] at hp'
    cases hp'
  · show table1.constants.next = 0
    rw [hc]
    rfl
  · intro g hg
    cases hg
  · intro p hp' gi hgi
    rw [hp] at hp'
    cases hp'

/-- Unfold `construct_module` given the results of the three passes. -/
lemma construct_module_eq
    (defs : List TypedDefinition) (table1 : SymbolTable) (env1 : Env)
    (st2 : AssemblerState) (m : WasmModule)
    (h1 : pass1 defs SymbolTable.empty (generate_prelude_types []) = some (table1, env1))
    (h2 : pass2 defs ⟨table1, [], env1⟩ = some st2)
    (hm : construct_module ⟨defs⟩ = some m) :
    m.constants = st2.constants ∧
    m.types = st2.table.types.items.map (fun x => x.2.definition) := by
  rw [construct_module] at hm
  simp only at hm
  rw [h1] at hm
  simp only [Option.bind_eq_bind, Option.some_bind] at hm
  rw [h2] at hm
  simp only [Option.some_bind, Option.bind_eq_some] at hm
  obtain ⟨fns, hfns, hm⟩ := hm
  rw [Option.some.injEq] at hm
  subst hm
  exact ⟨rfl, rfl⟩

/-- **C5** (confirmed).  Every Product type in the emitted type section is
encoded as a final struct whose supertype index is the type id of a Sum
type entry of the same module, whose first field is the immutable integer
tag field, and whose remaining fields are the variant's field value-types
in order (the product type definition is synthesised by `from_product_type`
directly from the variant's argument types). -/
theorem c5_product_type_encoding
    (defs : List TypedDefinition) (table1 : SymbolTable) (env1 : Env)
    (st2 : AssemblerState) (m : WasmModule)
    (h1 : pass1 defs SymbolTable.empty (generate_prelude_types []) = some (table1, env1))
    (h2 : pass2 defs ⟨table1, [], env1⟩ = some st2)
    (hm : construct_module ⟨defs⟩ = some m) :
    (∀ t ∈ m.types, ∀ sup tg fs, t.definition = .product sup tg fs →
      (∃ t', t' ∈ m.types ∧ t'.definition = .sum ∧ t'.id = sup) ∧
      encodeTypeEntry t = .sub true (some sup)
        (tag_field :: fs.map (fun f => ⟨to_val_type f, false⟩)) ∧
      ∃ es, typeSection? (emit m) = some es ∧ encodeTypeEntry t ∈ es) ∧
    (∀ (variant : RecordConstructor) (name : String) (tid tg sup : Nat)
      (tbl : SymbolTable) (env : Env) (d : WasmType),
      from_product_type variant name tid tg sup tbl env = some d →
      ∃ fs, variant.arguments.mapM (fun a => from_gleam_type a.type_ env tbl) = some fs ∧
        d = ⟨name, tid, .product sup tg fs⟩) := by
  obtain ⟨hconsts, htypes⟩ := construct_module_eq defs table1 env1 st2 m h1 h2 hm
  have hinv := construct_module_inv defs table1 env1 st2 h1 h2
  constructor
  · intro t ht sup tg fs hdef
    rw [htypes] at ht
    obtain ⟨p, hp, hpt⟩ := List.mem_map.mp ht
    subst hpt
    obtain ⟨q, hq, hq2, hq3⟩ := hinv.prodSum p hp sup tg fs hdef
    refine ⟨⟨q.2.definition, ?_, hq2, hq3⟩, ?_, ?_⟩
    · rw [htypes]
      exact List.mem_map.mpr ⟨q, hq, rfl⟩
    · rw [encodeTypeEntry, hdef]
    · refine ⟨(sortByKey (fun t => t.id) m.types).map encodeTypeEntry ++ [.func [] []],
        by simp [emit, typeSection?], ?_⟩
      apply List.mem_append_left
      apply List.mem_map.mpr
      refine ⟨p.2.definition, ?_, rfl⟩
      rw [mem_sortByKey, htypes]
      exact List.mem_map.mpr ⟨p, hp, rfl⟩
  · intro variant name tid tg sup tbl env d hd
    simp only [from_product_type, Option.bind_eq_bind, Option.bind_eq_some] at hd
    obtain ⟨fs, hfs, hd⟩ := hd
    rw [Option.some.injEq] at hd
    exact ⟨fs, hfs, hd.symm⟩

/-- The symbol table produced by the first pass on `exampleModule`. -/
def exTable1 : SymbolTable := ⟨⟨0, []⟩, ⟨1, []⟩, ⟨0, []⟩, ⟨2, []⟩, ⟨0, []⟩⟩

/-- The environment produced by the first pass on `exampleModule`. -/
def exEnv1 : Env :=
  [("id", .functionId 0), ("Box", .sumId 1), ("Color", .sumId 0),
   ("False", .builtin (.boolean false)), ("True", .builtin (.boolean true)),
   ("Nil", .builtin .nil)]

/-- The type store contents after the second pass on `exampleModule`. -/
def exTypesItems : List (Nat × TableTypeEntry) :=
  [(0, ⟨0, "sum@Color", ⟨"sum@Color", 0, .sum⟩⟩),
   (1, ⟨1, "typ@Color.Red", ⟨"typ@Color.Red", 1, .product 0 0 []⟩⟩),
   (2, ⟨2, "new@Color.Red", ⟨"new@Color.Red", 2, .function [] (.structRef 1)⟩⟩),
   (3, ⟨3, "typ@Color.Green", ⟨"typ@Color.Green", 3, .product 0 1 []⟩⟩),
   (4, ⟨4, "new@Color.Green", ⟨"new@Color.Green", 4, .function [] (.structRef 3)⟩⟩),
   (5, ⟨5, "sum@Box", ⟨"sum@Box", 5, .sum⟩⟩),
   (6, ⟨6, "typ@Box.BoxC", ⟨"typ@Box.BoxC", 6, .product 5 0 [.int]⟩⟩),
   (7, ⟨7, "new@Box.BoxC", ⟨"new@Box.BoxC", 7, .function [.int] (.structRef 6)⟩⟩),
   (8, ⟨8, "fun@id", ⟨"fun@id", 8, .function [.int] .int⟩⟩)]

/-- The globals vector after the second pass on `exampleModule`: one
global per Simple variant (`Red`, `Green`). -/
def exConstants : List WasmGlobal :=
  [⟨"global@Color.Red", 0, 1, [.call 1]⟩,
   ⟨"global@Color.Green", 1, 3, [.call 2]⟩]

/-- The full assembler state after the second pass on `exampleModule`. -/
def exSt2 : AssemblerState :=
  ⟨⟨⟨9, exTypesItems⟩,
    ⟨4, [(1, ⟨1, 2, "Red", 0⟩), (2, ⟨2, 4, "Green", 0⟩),
         (3, ⟨3, 7, "BoxC", 1⟩), (0, ⟨0, 8, "id", 1⟩)]⟩,
    ⟨3, [(0, ⟨0, "product@Color.Red", 1, 0, 0, 1, .simple 0, []⟩),
         (1, ⟨1, "product@Color.Green", 3, 0, 1, 2, .simple 1, []⟩),
         (2, ⟨2, "product@Box.BoxC", 6, 1, 0, 3, .composite, [⟨"arg0", 0, .int⟩]⟩)]⟩,
    ⟨2, [(0, ⟨0, "Color", 0, [0, 1]⟩), (1, ⟨1, "Box", 5, [2]⟩)]⟩,
    ⟨2, [(0, ⟨0, "global@Color.Red", 1⟩), (1, ⟨1, "global@Color.Green", 3⟩)]⟩⟩,
   exConstants,
   ("id", .functionId 0) :: ("BoxC", .productId 2) :: ("Box", .sumId 1) ::
    ("Green", .productId 1) :: ("Red", .productId 0) :: ("Color", .sumId 0) :: exEnv1⟩

/-- The module constructed from `exampleModule`. -/
def exM : WasmModule :=
  ⟨[⟨"new@Red", 2, [.i32Const 0, .structNew 1, .iend], [], [], 1⟩,
    ⟨"new@Green", 4, [.i32Const 1, .structNew 3, .iend], [], [], 2⟩,
    ⟨"new@BoxC", 7, [.i32Const 0, .localGet 0, .structNew 6, .iend], [], [none], 3⟩,
    ⟨"id", 8, [.localGet 0, .iend], [], [some "x"], 0⟩],
   exConstants,
   exTypesItems.map (fun x => x.2.definition)⟩

lemma ex_pass1 :
    pass1 exampleModule.definitions SymbolTable.empty (generate_prelude_types []) =
      some (exTable1, exEnv1) := by rfl

lemma ex_pass2 :
    pass2 exampleModule.definitions ⟨exTable1, [], exEnv1⟩ = some exSt2 := by rfl

lemma ex_pass3 :
    pass3 exampleModule.definitions exSt2.table exSt2.env = some exM.functions := by
  simp [pass3, emit_variant_constructor, emit_function, emit_statement_list,
    emit_expression, processArgs, envGet, envSet, Store.get, integer.const_,
    from_gleam_type, exSt2, exEnv1, exTypesItems, exM, List.find?,
    List.mapM, List.mapM.loop, List.range, List.range.loop]

lemma ex_construct : construct_module exampleModule = some exM := by
  rw [construct_module]
  simp only [Option.bind_eq_bind]
  rw [ex_pass1]
  simp only [Option.some_bind]
  rw [ex_pass2]
  simp only [Option.some_bind]
  rw [ex_pass3]
  simp only [Option.some_bind]
  rfl

/-- Witness for `c5_product_type_encoding`: the hypotheses at the concrete
module `exampleModule` (three pass results computed above). -/
theorem c5_product_type_encoding_witness :
    (∀ t ∈ exM.types, ∀ sup tg fs, t.definition = .product sup tg fs →
      (∃ t', t' ∈ exM.types ∧ t'.definition = .sum ∧ t'.id = sup) ∧
      encodeTypeEntry t = .sub true (some sup)
        (tag_field :: fs.map (fun f => ⟨to_val_type f, false⟩)) ∧
      ∃ es, typeSection? (emit exM) = some es ∧ encodeTypeEntry t ∈ es) ∧
    (∀ (variant : RecordConstructor) (name : String) (tid tg sup : Nat)
      (tbl : SymbolTable) (env : Env) (d : WasmType),
      from_product_type variant name tid tg sup tbl env = some d →
      ∃ fs, variant.arguments.mapM (fun a => from_gleam_type a.type_ env tbl) = some fs ∧
        d = ⟨name, tid, .product sup tg fs⟩) :=
  c5_product_type_encoding exampleModule.definitions exTable1 exEnv1 exSt2 exM
    ex_pass1 ex_pass2 ex_construct

/-- **C6** (confirmed).  Every Simple (zero-argument) variant's product
entity has exactly one global in the constructed module whose declared
type index equals the product's type index; that global's initializer
calls the variant's constructor; the globals are densely indexed in
ascending order (so Rust's sort leaves them in place); and the code
section's synthesised start-function entry has body
`startBody`: each global's initializer followed by `global.set` of its
index, terminated by `end`. -/
theorem c6_simple_variant_globals
    (defs : List TypedDefinition) (table1 : SymbolTable) (env1 : Env)
    (st2 : AssemblerState) (m : WasmModule)
    (h1 : pass1 defs SymbolTable.empty (generate_prelude_types []) = some (table1, env1))
    (h2 : pass2 defs ⟨table1, [], env1⟩ = some st2)
    (hm : construct_module ⟨defs⟩ = some m) :
    (∀ p ∈ st2.table.products.items, ∀ gi, p.2.kind = .simple gi →
      m.constants.countP (fun g => g.type_index == p.2.type_) = 1 ∧
      ∃ g, m.constants[gi]? = some g ∧ g.type_index = p.2.type_ ∧
        g.initializer = [.call p.2.constructor]) ∧
    m.constants.map (fun g => g.global_index) = List.range m.constants.length ∧
    sortByKey (fun g => g.global_index) m.constants = m.constants ∧
    ∃ cs, codeSection? (emit m) = some cs ∧
      cs.getLast? = some ⟨[], startBody m.constants⟩ := by
  obtain ⟨hconsts, htypes⟩ := construct_module_eq defs table1 env1 st2 m h1 h2 hm
  have hinv := construct_module_inv defs table1 env1 st2 h1 h2
  have hsorted : sortByKey (fun g => g.global_index) m.constants = m.constants := by
    apply sortByKey_eq_self
    have h := hinv.constIdx
    rw [← hconsts] at h
    have hlt : List.Pairwise (fun a b => a < b)
        (m.constants.map (fun g => g.global_index)) := by
      rw [h]
      exact List.pairwise_lt_range _
    rw [List.pairwise_map] at hlt
    exact hlt.imp (fun hab => Nat.le_of_lt hab)
  refine ⟨?_, ?_, hsorted, ?_⟩
  · intro p hp gi hgi
    obtain ⟨g, hg, hgt, hginit⟩ := hinv.prodGlobal p hp gi hgi
    rw [← hconsts] at hg
    constructor
    · apply countP_eq_one_of_pairwise
      · rw [hconsts]
        exact hinv.constTypeSorted
      · exact ⟨g, List.getElem?_mem hg, hgt⟩
    · exact ⟨g, hg, hgt, hginit⟩
  · rw [hconsts]
    exact hinv.constIdx
  · refine ⟨(sortByKey (fun f => f.function_index) m.functions).map (fun f =>
        ⟨f.locals.map (fun l => (1, to_val_type l.2)), f.instructions⟩)
      ++ [⟨[], startBody (sortByKey (fun g => g.global_index) m.constants)⟩],
      by simp [emit, codeSection?], ?_⟩
    rw [List.getLast?_concat, hsorted]

/-- Witness for `c6_simple_variant_globals`: the hypotheses at the
concrete module `exampleModule`, whose two Simple variants `Red` and
`Green` each get one global. -/
theorem c6_simple_variant_globals_witness :
    (∀ p ∈ exSt2.table.products.items, ∀ gi, p.2.kind = .simple gi →
      exM.constants.countP (fun g => g.type_index == p.2.type_) = 1 ∧
      ∃ g, exM.constants[gi]? = some g ∧ g.type_index = p.2.type_ ∧
        g.initializer = [.call p.2.constructor]) ∧
    exM.constants.map (fun g => g.global_index) = List.range exM.constants.length ∧
    sortByKey (fun g => g.global_index) exM.constants = exM.constants ∧
    ∃ cs, codeSection? (emit exM) = some cs ∧
      cs.getLast? = some ⟨[], startBody exM.constants⟩ :=
  c6_simple_variant_globals exampleModule.definitions exTable1 exEnv1 exSt2 exM
    ex_pass1 ex_pass2 ex_construct
